import Mathlib

/-!
# Symbol / Scope bindings of the slang elaborator

Shallow embedding of `bindings/python/symbols.cpp`: the lambdas bound to
`Scope.__getitem__`, `Scope.__len__`, `Scope.__iter__`, `Symbol.__repr__`,
`Symbol.hierarchicalPath`, `Symbol.lexicalPath`, `Scope.find` and
`Scope.lookupName`, the enumeration and class registrations of
`registerSymbols`, and the library operations they rely on (`std::next`,
`std::distance`, `py::make_iterator`, `py::enum_`, `fmt::format`).

Machine integers are natural numbers / integers with explicit wrap-around at
`2 ^ 64`; undefined behaviour of the C++ abstract machine is an explicit
outcome, so that a theorem can say a call does or does not reach it.
-/

set_option autoImplicit false

namespace Slang

/-! ## Data model -/

/-- Enumerator of `SymbolKind`, identified by its underlying value; the
enumerator list lives in a header outside this translation unit. -/
structure SymbolKind where
  value : Nat
deriving DecidableEq, Repr

/-- The fields of `Symbol` that the binding reads: `kind` and `name`. -/
structure Symbol where
  kind : SymbolKind
  name : String
deriving DecidableEq, Repr

/-- A scope owns its members in declaration order. The member count of a live
scope is below `2 ^ 63`: every member is a distinct object of the compilation's
arena, so `std::distance` over the members is representable in `ptrdiff_t`. -/
structure Scope where
  memberList : List Symbol
  fits : memberList.length < 2 ^ 63

/-- Outcome of a bound call as seen from Python: a value, one of the two
exceptions the binding raises, or undefined behaviour of the C++ code. -/
inductive PyResult (α : Type) where
  | ok (a : α)
  | index_error
  | stop_iteration
  | undefinedBehaviour
deriving DecidableEq, Repr

/-! ## Machine integers -/

/-- Values of `size_t`: `0 ≤ i < 2 ^ 64`. -/
def SIZE_LIMIT : Nat := 2 ^ 64

/-- The conversion `ptrdiff_t(i)` of a `size_t`: two's-complement wrap. -/
def ptrdiff_t (i : Nat) : Int :=
  if i % SIZE_LIMIT < 2 ^ 63 then ((i % SIZE_LIMIT : Nat) : Int)
  else ((i % SIZE_LIMIT : Nat) : Int) - (SIZE_LIMIT : Int)

/-! ## Forward iterators over the members -/

/-- A member iterator is the chain of members from its position on; the
past-the-end iterator is the empty chain. -/
abbrev iterator := List Symbol

/-- The range `Scope::members()` hands out: `begin()` and `end()`. -/
structure iterator_range where
  m_begin : iterator
  m_end : iterator

/-- Operator `++` on an iterator; incrementing past-the-end is undefined. -/
def iterator.incr : iterator → Option iterator
  | [] => none
  | _ :: rest => some rest

/-- Operator `*` on an iterator; dereferencing past-the-end is undefined. -/
def iterator.deref : iterator → Option Symbol
  | [] => none
  | s :: _ => some s

/-- `std::distance(first, last)` on forward iterators: the number of
increments that take `first` to `last` (`none` when `last` is not reached). -/
def distance : iterator → iterator → Option Int
  | [], last => if last = [] then some 0 else none
  | s :: rest, last =>
    if s :: rest = last then some 0
    else (distance rest last).map (fun d => d + 1)

/-- The loop of `std::advance`: `k` increments in a row. -/
def advance : Nat → iterator → Option iterator
  | 0, it => some it
  | k + 1, it => it.incr.bind (advance k)

/-- `std::next(it, n)` on a forward iterator: `n` increments; a negative `n`
is undefined for an iterator that is not bidirectional. -/
def next (it : iterator) (n : Int) : Option iterator :=
  if n < 0 then none else advance n.toNat it

/-- `Scope::members()`: from the first member to the past-the-end iterator. -/
def Scope.members (self : Scope) : iterator_range :=
  { m_begin := self.memberList, m_end := [] }

/-- `iterator_range::size()`: `std::distance(begin(), end())`, a `ptrdiff_t`. -/
def iterator_range.size (r : iterator_range) : Option Int :=
  distance r.m_begin r.m_end

/-! ## The bound lambdas of `Scope` -/

/-- `Scope.__getitem__`:
```
auto members = self.members();
if (ptrdiff_t(i) >= members.size()) throw py::index_error();
return py::cast(&(*std::next(members.begin(), i)));
```
The argument of `std::next` is `i` converted to the iterator's difference type. -/
def Scope.__getitem__ (self : Scope) (i : Nat) : PyResult Symbol :=
  let members := self.members
  match members.size with
  | none => .undefinedBehaviour
  | some size =>
    if ptrdiff_t i ≥ size then .index_error
    else
      match (next members.m_begin (ptrdiff_t i)).bind iterator.deref with
      | some sym => .ok sym
      | none => .undefinedBehaviour

/-- `Scope.__len__`: `self.members().size()`. -/
def Scope.__len__ (self : Scope) : PyResult Int :=
  match self.members.size with
  | some size => .ok size
  | none => .undefinedBehaviour

/-- State object of `py::make_iterator(first, last)`. -/
structure iterator_state where
  it : iterator
  last : iterator
  first_or_done : Bool
deriving DecidableEq, Repr

/-- `Scope.__iter__`: `py::make_iterator(members.begin(), members.end())`. -/
def Scope.__iter__ (self : Scope) : iterator_state :=
  let members := self.members
  { it := members.m_begin, last := members.m_end, first_or_done := true }

/-- The `__next__` of `py::make_iterator`:
```
if (!s.first_or_done) ++s.it; else s.first_or_done = false;
if (s.it == s.end) { s.first_or_done = true; throw stop_iteration(); }
return *s.it;
```
-/
def iterator_state.__next__ (s : iterator_state) : PyResult Symbol × iterator_state :=
  let advanced : Option iterator_state :=
    if !s.first_or_done then s.it.incr.map (fun it' => { s with it := it' })
    else some { s with first_or_done := false }
  match advanced with
  | none => (.undefinedBehaviour, s)
  | some s1 =>
    if s1.it = s1.last then (.stop_iteration, { s1 with first_or_done := true })
    else
      match s1.it.deref with
      | some sym => (.ok sym, s1)
      | none => (.undefinedBehaviour, s1)

/-- Python's iteration loop (`list(it)`, `for x in it`): call `__next__`
until it raises `StopIteration`, collecting the values. `none` when the fuel
runs out or the loop leaves through anything but `StopIteration`. -/
def iterate : Nat → iterator_state → Option (List Symbol)
  | 0, _ => none
  | fuel + 1, s =>
    match s.__next__ with
    | (.ok sym, s1) => (iterate fuel s1).map (fun rest => sym :: rest)
    | (.stop_iteration, _) => some []
    | _ => none

/-- The Python objects alive while a scope is being iterated: the scope
(held as `const Scope&` by every lambda) and the iterator objects made so far. -/
structure Session where
  scope : Scope
  iterators : List iterator_state

/-- A call made from Python during a session: `iter(S)`, or `next` on the
`k`-th iterator object created so far. -/
inductive Call where
  | iter
  | next (k : Nat)
deriving DecidableEq, Repr

/-- Effect of one call on the session: `__iter__` builds a new state object
from the scope, `__next__` updates the state object it is called on. -/
def Session.step (σ : Session) : Call → Session
  | .iter => { σ with iterators := σ.iterators ++ [σ.scope.__iter__] }
  | .next k =>
    match σ.iterators[k]? with
    | some s => { σ with iterators := σ.iterators.set k s.__next__.2 }
    | none => σ

/-- Run a sequence of calls. -/
def Session.run (σ : Session) (calls : List Call) : Session :=
  calls.foldl Session.step σ

/-! ## `Symbol.__repr__` -/

/-- Replacement-field processing of `fmt::format` for the fields the binding
uses: an empty field takes the next argument, a doubled brace is a literal
brace, any other brace makes the format string invalid (`none`). -/
def fmt.vformat : List Char → List String → Option (List Char)
  | [], _ => some []
  | c :: rest, args =>
    if c = '\x7b' then
      match rest, args with
      | '\x7b' :: rest', _ => (fmt.vformat rest' args).map (fun out => '\x7b' :: out)
      | '\x7d' :: rest', arg :: args' =>
        (fmt.vformat rest' args').map (fun out => arg.data ++ out)
      | _, _ => none
    else if c = '\x7d' then
      match rest with
      | '\x7d' :: rest' => (fmt.vformat rest' args).map (fun out => '\x7d' :: out)
      | _ => none
    else (fmt.vformat rest args).map (fun out => c :: out)

/-- `fmt::format(fmt, args...)` on string arguments. -/
def fmt.format (fmtstr : String) (args : List String) : Option String :=
  (fmt.vformat fmtstr.data args).map String.mk

/-- `Symbol.__repr__`:
`fmt::format("Symbol(SymbolKind.{}, \"{}\")", toString(self.kind), self.name)`.
`toString` on `SymbolKind` is declared outside this file and is a parameter. -/
def Symbol.__repr__ (toString : SymbolKind → String) (self : Symbol) : Option String :=
  fmt.format "Symbol(SymbolKind.\x7b\x7d, \"\x7b\x7d\")" [toString self.kind, self.name]

/-! ## The symbol table behind `Scope.find` and `Scope.lookupName`

The binding forwards both calls to the elaborator (`self.find(arg)`,
`self.lookupName(arg, location, flags)`), whose implementation is not part of
this translation unit. The definitions of this section follow the
specification of the symbol table and of the lookup algorithm. -/

/-- Index of a scope in the compilation's arena. -/
abbrev ScopeId := Nat

/-- Identity of a declaration: its owning scope and its insertion index there. -/
structure SymbolRef where
  scope : ScopeId
  index : Nat
deriving DecidableEq, Repr

/-- Modelled from the spec: the links of a member that the lookup follows,
which `Symbol.h` and the symbol classes declare outside this file. A member may
itself be a scope (instance body, generate block, array element ...), or be an
explicit import standing for a declaration of a package. -/
inductive MemberLink where
  | plain
  | scope (id : ScopeId)
  | explicitImport (target : SymbolRef)
deriving DecidableEq, Repr

/-- Modelled from the spec: a scope as the symbol table holds it, which
`Scope.h` declares outside this file: "an ordered container of Symbols; owns
its members", with a non-owning link to the enclosing lexical scope (absent at
the root) and the packages it imports with a wildcard. `links` runs parallel
to the members; a missing entry is `plain`. -/
structure ScopeNode where
  scope : Scope
  links : List MemberLink
  parent : Option ScopeId
  wildcardImports : List ScopeId

/-- Modelled from the spec: the compilation-wide arena of scopes, which
`Compilation.h` declares outside this file; `root` is the top of the instance
hierarchy. -/
structure Compilation where
  scopes : List ScopeNode
  root : ScopeId

/-- The members of scope `sid`; a scope that does not exist has none. -/
def Compilation.membersOf (c : Compilation) (sid : ScopeId) : List Symbol :=
  match c.scopes[sid]? with
  | some node => node.scope.memberList
  | none => []

/-- The declaration a reference designates. -/
def Compilation.symbolAt (c : Compilation) (r : SymbolRef) : Option Symbol :=
  (c.membersOf r.scope)[r.index]?

/-- The link of member `index` of scope `sid`. -/
def Compilation.linkOf (c : Compilation) (sid : ScopeId) (index : Nat) : MemberLink :=
  match c.scopes[sid]? with
  | some node => node.links.getD index .plain
  | none => .plain

/-- The enclosing lexical scope of `sid`. -/
def Compilation.parentOf (c : Compilation) (sid : ScopeId) : Option ScopeId :=
  match c.scopes[sid]? with
  | some node => node.parent
  | none => none

/-- Insertion index of the first member, counting from `start`, that has the
given name and passes the filter `keep` on indices. -/
def firstNamed (name : String) (keep : Nat → Bool) : List Symbol → Nat → Option Nat
  | [], _ => none
  | s :: rest, start =>
    if s.name = name ∧ keep start = true then some start
    else firstNamed name keep rest (start + 1)

/-- Modelled from the spec: `Scope::find`, defined in `Scope.cpp` outside this
file: "returns the first Symbol whose name equals `name` within this scope
only (no parent traversal), or nothing". -/
def Compilation.find (c : Compilation) (sid : ScopeId) (name : String) : Option SymbolRef :=
  (firstNamed name (fun _ => true) (c.membersOf sid) 0).map (fun i => ⟨sid, i⟩)

/-- The lambda bound to `Scope.find`: `return self.find(arg);`, with `self` the
scope at that place of the compilation and the result a reference to the
symbol found (`byrefint`), or `None`. -/
def Scope.find (c : Compilation) (self : ScopeId) (arg : String) : Option SymbolRef :=
  c.find self arg

/-! ## Lookup -/

/-- The enumerators of `LookupFlags` that the binding exposes. -/
inductive LookupFlags where
  | None
  | Type_
  | AllowDeclaredAfter
  | DisallowWildcardImport
  | NoUndeclaredError
  | NoUndeclaredErrorIfUninstantiated
  | TypedefTarget
  | NoParentScope
  | NoSelectors
  | AllowRoot
  | ForceHierarchical
deriving DecidableEq, Repr

/-- Modelled from the spec: the underlying values of `LookupFlags`, which
`Lookup.h` declares outside this file. The specification says that "flags are
a bitmask and compose" and lists no values, so the table is an assumption:
`None`, the default of `lookupName`, is the empty mask, and every other flag is
a non-empty mask, here one bit each in the order of the enumerators. Theorems
use the table only through these two facts. -/
def LookupFlags.underlying : LookupFlags → Nat
  | .None => 0
  | .Type_ => 1
  | .AllowDeclaredAfter => 2
  | .DisallowWildcardImport => 4
  | .NoUndeclaredError => 8
  | .NoUndeclaredErrorIfUninstantiated => 16
  | .TypedefTarget => 32
  | .NoParentScope => 64
  | .NoSelectors => 128
  | .AllowRoot => 256
  | .ForceHierarchical => 512

/-- The class `bitmask<LookupFlags>`: a set of flags held as bits. -/
structure bitmask where
  m_bits : Nat
deriving DecidableEq, Repr

/-- `bitmask::has`: some bit of the flag is set in the mask. -/
def bitmask.has (self : bitmask) (flag : LookupFlags) : Bool :=
  (self.m_bits &&& flag.underlying) != 0

/-- Operator `|` on masks. -/
def bitmask.or (self other : bitmask) : bitmask :=
  ⟨self.m_bits ||| other.m_bits⟩

/-- The mask made of one flag. -/
def bitmask.of (flag : LookupFlags) : bitmask :=
  ⟨flag.underlying⟩

/-- Modelled from the spec: `LookupLocation`, which `Lookup.h` declares
outside this file: "(owning Scope pointer, ordinal index) pair; two sentinel
values mark before all and after all". The sentinels have no scope. -/
structure LookupLocation where
  scope : Option ScopeId
  index : Nat
deriving DecidableEq, Repr

/-- The sentinel "after all": no scope, the largest `uint32_t` index. -/
def LookupLocation.max : LookupLocation := ⟨none, 2 ^ 32 - 1⟩

/-- The sentinel "before all": no scope, index zero. -/
def LookupLocation.min : LookupLocation := ⟨none, 0⟩

/-- Kinds of resolution failure the specification names. -/
inductive DiagCode where
  | UndeclaredIdentifier
  | UsedBeforeDeclared
  | AmbiguousWildcardImport
  | UnexpectedSelection
  | CouldNotResolveHierarchicalPath
deriving DecidableEq, Repr

/-- A buffered diagnostic: what failed, for which name. -/
structure Diagnostic where
  code : DiagCode
  name : String
deriving DecidableEq, Repr

/-- Modelled from the spec: `LookupResult`, which `Lookup.h` declares outside
this file: "found Symbol (optional), flags {wasImported, isHierarchical,
fromTypeParam, fromForwardTypedef, suppressUndeclared}, an ordered sequence of
unresolved trailing member-selectors ..., and a buffered diagnostic list",
"constructed empty per query". -/
structure LookupResult where
  found : Option SymbolRef := none
  wasImported : Bool := false
  isHierarchical : Bool := false
  suppressUndeclared : Bool := false
  fromTypeParam : Bool := false
  fromForwardTypedef : Bool := false
  selectors : List String := []
  diagnostics : List Diagnostic := []
deriving DecidableEq, Repr

/-- One level of a driven range: the two bounds of a bit or element select,
in either order. -/
structure DriverRange where
  left : Int
  right : Int
deriving DecidableEq, Repr

/-- Lower bound of a range. -/
def DriverRange.lower (r : DriverRange) : Int := min r.left r.right

/-- Upper bound of a range. -/
def DriverRange.upper (r : DriverRange) : Int := max r.left r.right

/-- Two ranges of one level share a bit or element. -/
def DriverRange.intersects (a b : DriverRange) : Bool :=
  decide (a.lower ≤ b.upper) && decide (b.lower ≤ a.upper)

/-- Modelled from the spec: `ValueSymbol::Driver`, which `ValueSymbol.h`
declares outside this file: "owning statement/procedure symbol, source range,
a small fixed set of boolean classification flags", "recording which
bits/elements of an aggregate are touched (for partial/bit-select
assignments)". `bounds` lists the selected range at each level of the
aggregate, outermost first; a driver of the whole value has none. -/
structure Driver where
  containingSymbol : SymbolRef
  bounds : List DriverRange
  isInSingleDriverProcedure : Bool
  isInInitialBlock : Bool
  isInSubroutine : Bool
deriving DecidableEq, Repr

/-- Two selections overlap when their ranges intersect at every level both
select; a level only one of them selects is driven whole by the other. -/
def boundsOverlap : List DriverRange → List DriverRange → Bool
  | [], _ => true
  | _ :: _, [] => true
  | a :: as, b :: bs => a.intersects b && boundsOverlap as bs

/-- Modelled from the spec: `ValueSymbol::Driver::overlaps`, in
`ValueSymbol.cpp` outside this file: "an `overlaps(other)` predicate comparing
the bit/array ranges driven". -/
def Driver.overlaps (self other : Driver) : Bool :=
  boundsOverlap self.bounds other.bounds

/-! ## Parent links and paths

The binding forwards `parentScope`, `hierarchicalPath` and `lexicalPath` to
`Symbol::getParentScope`, `Symbol::getHierarchicalPath` and
`Symbol::getLexicalPath`, which are implemented outside this translation unit.
The definitions of this section follow the specification. -/

/-- Modelled from the spec: `Symbol::getParentScope`, in `Symbol.h` outside
this file: "a back-reference to its owning Scope (non-owning)". -/
def Compilation.getParentScope (c : Compilation) (sym : SymbolRef) : Option ScopeId :=
  match c.symbolAt sym with
  | some _ => some sym.scope
  | none => none

/-- Modelled from the spec: `Scope::asSymbol`, in `Scope.h` outside this file:
the symbol a scope is, that is, the member of its parent that stands for it;
the root is no member of any scope. -/
def Compilation.asSymbol (c : Compilation) (sid : ScopeId) : Option SymbolRef :=
  match c.parentOf sid with
  | none => none
  | some p =>
    ((List.range (c.membersOf p).length).find? (fun i => c.linkOf p i == .scope sid)).map
      (fun i => ⟨p, i⟩)

/-- The scope reached from `sid` by following the parent link `k` times. -/
def Compilation.ancestor (c : Compilation) : Nat → ScopeId → Option ScopeId
  | 0, sid => some sid
  | k + 1, sid => (c.parentOf sid).bind (c.ancestor k)

/-- Modelled from the spec: the invariant the elaborator keeps on the symbol
table, in `Scope.cpp` and `Compilation.cpp` outside this file: "scopes form a
tree, not a general graph", "every Symbol belongs to exactly one owning Scope
except the root". Every parent link points to a scope of the compilation that
has the linking scope among its members, only the root has no parent, and no
scope is its own ancestor. -/
def Compilation.isTree (c : Compilation) : Bool :=
  (List.range c.scopes.length).all fun sid =>
    (match c.parentOf sid with
      | some p => decide (p < c.scopes.length) && (c.asSymbol sid).isSome
      | none => sid == c.root) &&
    (List.range c.scopes.length).all fun k => c.ancestor (k + 1) sid != some sid

/-- The walk `s = s.parentScope` repeated from scope `sid` until there is no
parent: the scopes visited, `sid` first (`none` when the fuel runs out). -/
def Compilation.scopeChain (c : Compilation) : Nat → ScopeId → Option (List ScopeId)
  | 0, _ => none
  | fuel + 1, sid =>
    match c.parentOf sid with
    | none => some [sid]
    | some p => (c.scopeChain fuel p).map (fun chain => sid :: chain)

/-- The walk upward from a symbol: its parent scope, then the parent scope of
that scope, and so on. -/
def Compilation.walkParents (c : Compilation) (fuel : Nat) (sym : SymbolRef) :
    Option (List ScopeId) :=
  match c.getParentScope sym with
  | some sid => c.scopeChain fuel sid
  | none => some []

/-- The text of instance-array indices: `[i]` for each dimension. -/
def indexText : List Int → String
  | [] => ""
  | i :: rest => "[" ++ toString i ++ "]" ++ indexText rest

/-- One segment of a path: the name of the symbol, followed in a hierarchical
path by its instance-array indices. `arrayPath` is the field
`InstanceSymbolBase::arrayPath`, declared outside this file. -/
def Compilation.segment (c : Compilation) (arrayPath : SymbolRef → List Int)
    (withIndices : Bool) (sym : SymbolRef) : String :=
  let name := match c.symbolAt sym with
    | some s => s.name
    | none => ""
  if withIndices then name ++ indexText (arrayPath sym) else name

/-- Modelled from the spec: the common walk of `Symbol::getHierarchicalPath`
and `Symbol::getLexicalPath`, in `Symbol.cpp` outside this file: "a Symbol
reports its own hierarchical path (root-to-self name chain using instance
names) and lexical path (syntactic nesting without instance-array indices) by
walking parent-scope links". The path of the enclosing scope's symbol is
appended to the buffer first, then a dot and the symbol's own segment. -/
def Compilation.appendPath (c : Compilation) (arrayPath : SymbolRef → List Int)
    (withIndices : Bool) : Nat → SymbolRef → String → Option String
  | 0, _, _ => none
  | fuel + 1, sym, buffer =>
    match c.asSymbol sym.scope with
    | none => some (buffer ++ c.segment arrayPath withIndices sym)
    | some owner =>
      (c.appendPath arrayPath withIndices fuel owner buffer).map
        (fun b => b ++ "." ++ c.segment arrayPath withIndices sym)

/-- The lambda bound to `Symbol.hierarchicalPath`:
`std::string str; self.getHierarchicalPath(str); return str;`. -/
def Symbol.hierarchicalPath (c : Compilation) (arrayPath : SymbolRef → List Int)
    (self : SymbolRef) : Option String :=
  c.appendPath arrayPath true c.scopes.length self ""

/-- The lambda bound to `Symbol.lexicalPath`:
`std::string str; self.getLexicalPath(str); return str;`. -/
def Symbol.lexicalPath (c : Compilation) (arrayPath : SymbolRef → List Int)
    (self : SymbolRef) : Option String :=
  c.appendPath arrayPath false c.scopes.length self ""

/-- The nesting chain of a symbol as the specification words it: the symbols
that stand for the enclosing scopes, from the top of the hierarchy down, and
last the symbol itself. -/
def Compilation.nameChain (c : Compilation) : Nat → SymbolRef → Option (List SymbolRef)
  | 0, _ => none
  | fuel + 1, sym =>
    match c.asSymbol sym.scope with
    | none => some [sym]
    | some owner => (c.nameChain fuel owner).map (fun chain => chain ++ [sym])

/-! ## The declaration phase -/

/-- Modelled from the spec: what elaboration declares in a scope, in
`Scope.cpp` and `Compilation.cpp` outside this file: "elaboration populates
Scopes with Symbols in declaration order". A declaration is a plain member, a
member that is itself a scope (instance body, generate block, ...), an explicit
import, or a wildcard import of a package. -/
inductive Declaration where
  | member (sym : Symbol)
  | scope (sym : Symbol)
  | explicitImport (sym : Symbol) (target : SymbolRef)
  | wildcardImport (package : ScopeId)
deriving DecidableEq, Repr

/-- Modelled from the spec: insertion of a member at the end of a scope, in
`Scope.cpp` outside this file: "insertion order = declaration order". Nothing
is added to a scope that does not exist or that is full. -/
def Compilation.addMember (c : Compilation) (sid : ScopeId) (sym : Symbol)
    (link : MemberLink) : Option Compilation :=
  match c.scopes[sid]? with
  | none => none
  | some node =>
    if h : (node.scope.memberList ++ [sym]).length < 2 ^ 63 then
      some { c with
        scopes := c.scopes.set sid
          { node with
            scope := ⟨node.scope.memberList ++ [sym], h⟩
            links := node.links ++ [link] } }
    else none

/-- Modelled from the spec: one step of the declaration phase, in `Scope.cpp`
and `Compilation.cpp` outside this file. A member that is itself a scope gets
a new, empty scope of the arena, whose parent is the scope it is declared in:
"every Symbol belongs to exactly one owning Scope except the root". -/
def Compilation.declare (c : Compilation) (sid : ScopeId) : Declaration → Compilation
  | .member sym => (c.addMember sid sym .plain).getD c
  | .explicitImport sym target => (c.addMember sid sym (.explicitImport target)).getD c
  | .wildcardImport package =>
    match c.scopes[sid]? with
    | none => c
    | some node =>
      { c with
        scopes := c.scopes.set sid
          { node with wildcardImports := node.wildcardImports ++ [package] } }
  | .scope sym =>
    match c.addMember sid sym (.scope c.scopes.length) with
    | none => c
    | some c1 =>
      { c1 with scopes := c1.scopes ++ [⟨⟨[], by decide⟩, [], some sid, []⟩] }

/-- The symbol table before anything is declared: the root scope alone. -/
def Compilation.initial : Compilation :=
  { scopes := [⟨⟨[], by decide⟩, [], none, []⟩], root := 0 }

/-- Modelled from the spec: the symbol table elaboration builds, in
`Compilation.cpp` outside this file: the declarations are made one after the
other, each in the scope it names, starting from the root scope alone. -/
def Compilation.elaborate (steps : List (ScopeId × Declaration)) : Compilation :=
  steps.foldl (fun c step => c.declare step.1 step.2) Compilation.initial

/-- The shape the declaration phase keeps: the root is scope `0`; in every
scope the links run parallel to the members; the root alone has no parent; the
parent of any other scope was allocated before it and has it among its
members. -/
def Compilation.WellLinked (c : Compilation) : Prop :=
  c.root = 0 ∧ 0 < c.scopes.length ∧
  ∀ (sid : Nat) (node : ScopeNode), c.scopes[sid]? = some node →
    node.links.length = node.scope.memberList.length ∧
    (node.parent = none → sid = 0) ∧
    ∀ p : Nat, node.parent = some p →
      p < sid ∧ ∃ pnode, c.scopes[p]? = some pnode ∧ MemberLink.scope sid ∈ pnode.links

/-! ## Reporting diagnostics -/

/-- Modelled from the spec: `LookupResult::reportDiags`, in `Lookup.cpp`
outside this file: the diagnostic buffer is "appended to during resolution and
drained by the caller via a report operation". The buffered diagnostics go to
the sink of the diagnostics collaborator and the buffer is left empty. -/
def LookupResult.reportDiags (self : LookupResult) (sink : List Diagnostic) :
    LookupResult × List Diagnostic :=
  ({ self with diagnostics := [] }, sink ++ self.diagnostics)

/-! ## The Python face of `LookupFlags` and of `lookupName` -/

/-- A `py::enum_` registration: the Python name, whether `py::arithmetic()` is
among the extra arguments, whether the C++ enumeration converts implicitly to
its underlying type, and the values added with `.value(name, enumerator)`. -/
structure enum_ where
  name : String
  is_arithmetic : Bool
  is_convertible : Bool
  entries : List (String × LookupFlags)
deriving DecidableEq, Repr

/-- The registration of `LookupFlags` (`py::enum_<LookupFlags>(m, "LookupFlags")`
followed by eleven `.value` calls): no `py::arithmetic()`. Whether the
enumeration is scoped is decided by `Lookup.h`, outside this file, and is a
parameter. -/
def LookupFlags.registration (is_convertible : Bool) : enum_ :=
  { name := "LookupFlags"
    is_arithmetic := false
    is_convertible := is_convertible
    entries :=
      [ ("None", .None), ("Type", .Type_), ("AllowDeclaredAfter", .AllowDeclaredAfter),
        ("DisallowWildcardImport", .DisallowWildcardImport),
        ("NoUndeclaredError", .NoUndeclaredError),
        ("NoUndeclaredErrorIfUninstantiated", .NoUndeclaredErrorIfUninstantiated),
        ("TypedefTarget", .TypedefTarget), ("NoParentScope", .NoParentScope),
        ("NoSelectors", .NoSelectors), ("AllowRoot", .AllowRoot),
        ("ForceHierarchical", .ForceHierarchical) ] }

/-- The special methods `enum_base::init` of pybind11 gives the Python type:
comparison for equality always; ordering only for an arithmetic enumeration;
the bitwise operators only for an arithmetic enumeration that converts to its
underlying type. -/
def enum_.operators (e : enum_) : List String :=
  ["__eq__", "__ne__"] ++
  (if e.is_arithmetic then ["__lt__", "__gt__", "__le__", "__ge__"] else []) ++
  (if e.is_arithmetic && e.is_convertible then
    ["__and__", "__rand__", "__or__", "__ror__", "__xor__", "__rxor__", "__invert__"]
   else [])

/-- Outcome of a binary operator applied to two values of an enumeration. -/
inductive OperatorResult where
  | value (bits : Nat)
  | type_error
deriving DecidableEq, Repr

/-- Python's `a | b` on two values of the registered enumeration: the `__or__`
(or reflected `__ror__`) of the type when it has one, which ors the
underlying values; otherwise `TypeError: unsupported operand type(s)`. -/
def enum_.__or__ (e : enum_) (a b : LookupFlags) : OperatorResult :=
  if "__or__" ∈ e.operators ∨ "__ror__" ∈ e.operators then
    .value (a.underlying ||| b.underlying)
  else .type_error

/-- One `py::class_<T, Bases...>` registration: the C++ type, the base types
named after it, and the attributes defined on the class, in source order. -/
structure class_ where
  type : String
  bases : List String
  attrs : List String
deriving DecidableEq, Repr

/-- Every `py::class_` registration of `registerSymbols`, in source order. -/
def registerSymbols : List class_ :=
  [
    (class_.mk "LookupLocation" []
      ["__init__", "__init__", "scope", "index", "before", "after", "max", "min", "__eq__",
      "__ne__"]),
    (class_.mk "LookupResult" []
      ["__init__", "found", "systemSubroutine", "wasImported", "isHierarchical",
      "suppressUndeclared", "fromTypeParam", "fromForwardTypedef", "selectors", "diagnostics",
      "hasError", "clear", "copyFrom", "reportDiags", "errorIfSelectors"]),
    (class_.mk "LookupResult::MemberSelector" []
      ["name", "dotLocation", "nameRange"]),
    (class_.mk "Lookup" []
      ["name", "unqualified", "unqualifiedAt", "findClass", "getContainingClass", "getVisibility",
      "isVisibleFrom", "isAccessibleFrom", "ensureVisible", "ensureAccessible", "findTempVar",
      "withinClassRandomize", "findAssertionLocalVar"]),
    (class_.mk "Symbol" []
      ["kind", "name", "location", "parentScope", "syntax", "isScope", "isType", "isValue",
      "declaringDefinition", "randMode", "nextSibling", "hierarchicalPath", "lexicalPath",
      "isDeclaredBefore", "isDeclaredBefore", "__repr__"]),
    (class_.mk "Scope" []
      ["compilation", "defaultNetType", "timeScale", "isProceduralContext", "containingInstance",
      "isUninstantiated", "containingInstance", "find", "lookupName", "__getitem__", "__len__",
      "__iter__"]),
    (class_.mk "AttributeSymbol" ["Symbol"]
      ["value"]),
    (class_.mk "CompilationUnitSymbol" ["Symbol", "Scope"]
      ["timeScale"]),
    (class_.mk "PackageSymbol" ["Symbol", "Scope"]
      ["defaultNetType", "timeScale", "defaultLifetime", "exportDecls", "hasExportAll",
      "findForImport"]),
    (class_.mk "RootSymbol" ["Symbol", "Scope"]
      ["topInstances", "compilationUnits"]),
    (class_.mk "ValueSymbol" ["Symbol"]
      ["type", "initializer", "firstDriver"]),
    (class_.mk "ValueSymbol::Driver" []
      ["containingSymbol", "sourceRange", "numPrefixEntries", "kind", "hasOriginalRange",
      "hasError", "nextDriver", "prefix", "originalRange", "isInputPort", "isUnidirectionalPort",
      "isClockVar", "isLocalVarFormalArg", "isInSingleDriverProcedure", "isInSubroutine",
      "isInInitialBlock", "overlaps"]),
    (class_.mk "EnumValueSymbol" ["ValueSymbol"]
      ["value"]),
    (class_.mk "ParameterSymbolBase" []
      ["isLocalParam", "isPortParam", "isBodyParam", "hasDefault"]),
    (class_.mk "ParameterSymbol" ["ValueSymbol", "ParameterSymbolBase"]
      ["value"]),
    (class_.mk "TypeParameterSymbol" ["Symbol", "ParameterSymbolBase"]
      ["targetType", "typeAlias"]),
    (class_.mk "DefParamSymbol" ["Symbol"]
      ["target", "initializer", "value"]),
    (class_.mk "SpecparamSymbol" ["ValueSymbol"]
      ["value"]),
    (class_.mk "VariableSymbol" ["ValueSymbol"]
      ["lifetime", "flags"]),
    (class_.mk "FormalArgumentSymbol" ["VariableSymbol"]
      ["direction"]),
    (class_.mk "FieldSymbol" ["VariableSymbol"]
      ["offset", "randMode"]),
    (class_.mk "NetSymbol" ["ValueSymbol"]
      ["expansionHint", "netType", "delay"]),
    (class_.mk "TempVarSymbol" ["VariableSymbol"]
      []),
    (class_.mk "IteratorSymbol" ["TempVarSymbol"]
      []),
    (class_.mk "PatternVarSymbol" ["TempVarSymbol"]
      []),
    (class_.mk "LocalAssertionVarSymbol" ["VariableSymbol"]
      []),
    (class_.mk "ClockingSkew" []
      ["edge", "delay", "hasValue"]),
    (class_.mk "ClockVarSymbol" ["VariableSymbol"]
      ["direction", "inputSkew", "outputSkew"]),
    (class_.mk "ClassPropertySymbol" ["VariableSymbol"]
      ["visibility", "randMode"]),
    (class_.mk "SubroutineSymbol" ["Symbol", "Scope"]
      ["defaultLifetime", "subroutineKind", "visibility", "flags", "arguments", "body",
      "returnType", "override", "prototype", "isVirtual"]),
    (class_.mk "MethodPrototypeSymbol" ["Symbol", "Scope"]
      ["subroutineKind", "visibility", "flags", "arguments", "returnType", "override",
      "subroutine", "isVirtual", "firstExternImpl"]),
    (class_.mk "MethodPrototypeSymbol::ExternImpl" []
      ["impl", "nextImpl"]),
    (class_.mk "PortSymbol" ["Symbol"]
      ["internalSymbol", "externalLoc", "direction", "isNullPort", "isAnsiPort", "type",
      "initializer", "internalExpr", "isNetPort"]),
    (class_.mk "MultiPortSymbol" ["Symbol"]
      ["ports", "direction", "isNullPort", "type", "initializer"]),
    (class_.mk "InterfacePortSymbol" ["Symbol"]
      ["interfaceDef", "modport", "isGeneric", "declaredRange", "connection", "isInvalid"]),
    (class_.mk "PortConnection" []
      ["ifaceInstance", "expression", "port", "parentInstance"]),
    (class_.mk "InstanceSymbolBase" ["Symbol"]
      ["arrayPath", "arrayName"]),
    (class_.mk "InstanceSymbol" ["InstanceSymbolBase"]
      ["definition", "isModule", "isInterface", "body", "getPortConnection", "getPortConnection",
      "getPortConnection"]),
    (class_.mk "InstanceBodySymbol" ["Symbol", "Scope"]
      ["parentInstance", "parameters", "isUninstantiated", "portList", "definition", "findPort",
      "hasSameType"]),
    (class_.mk "InstanceArraySymbol" ["Symbol", "Scope"]
      ["elements", "range", "arrayName"]),
    (class_.mk "UnknownModuleSymbol" ["Symbol"]
      ["moduleName", "paramExpressions", "portConnections", "portNames", "isChecker"]),
    (class_.mk "PrimitiveInstanceSymbol" ["InstanceSymbolBase"]
      ["primitiveType", "portConnections", "delay"]),
    (class_.mk "StatementBlockSymbol" ["Symbol", "Scope"]
      ["blockKind", "defaultLifetime"]),
    (class_.mk "ProceduralBlockSymbol" ["Symbol"]
      ["procedureKind", "isSingleDriverBlock", "body"]),
    (class_.mk "GenerateBlockSymbol" ["Symbol", "Scope"]
      ["constructIndex", "isInstantiated", "arrayIndex", "externalName"]),
    (class_.mk "GenerateBlockArraySymbol" ["Symbol", "Scope"]
      ["constructIndex", "entries", "valid", "externalName"]),
    (class_.mk "EmptyMemberSymbol" ["Symbol"]
      []),
    (class_.mk "GenvarSymbol" ["Symbol"]
      []),
    (class_.mk "SpecifyBlockSymbol" ["Symbol", "Scope"]
      []),
    (class_.mk "TransparentMemberSymbol" ["Symbol"]
      ["wrapped"]),
    (class_.mk "ExplicitImportSymbol" ["Symbol"]
      ["packageName", "importName", "isFromExport", "package", "importedSymbol"]),
    (class_.mk "WildcardImportSymbol" ["Symbol"]
      ["packageName", "isFromExport", "package"]),
    (class_.mk "ModportPortSymbol" ["ValueSymbol"]
      ["direction", "internalSymbol", "explicitConnection"]),
    (class_.mk "ModportClockingSymbol" ["Symbol"]
      ["target"]),
    (class_.mk "ModportSymbol" ["Symbol", "Scope"]
      ["hasExports"]),
    (class_.mk "ContinuousAssignSymbol" ["Symbol"]
      ["assignment", "delay"]),
    (class_.mk "ElabSystemTaskSymbol" ["Symbol"]
      ["taskKind", "message", "assertCondition"]),
    (class_.mk "PrimitivePortSymbol" ["ValueSymbol"]
      ["direction"]),
    (class_.mk "PrimitiveSymbol" ["Symbol", "Scope"]
      ["ports", "initVal", "primitiveKind", "isSequential"]),
    (class_.mk "AssertionPortSymbol" ["Symbol"]
      ["localVarDirection", "type"]),
    (class_.mk "SequenceSymbol" ["Symbol", "Scope"]
      ["ports"]),
    (class_.mk "PropertySymbol" ["Symbol", "Scope"]
      ["ports"]),
    (class_.mk "LetDeclSymbol" ["Symbol", "Scope"]
      ["ports"]),
    (class_.mk "ClockingBlockSymbol" ["Symbol", "Scope"]
      ["event", "defaultInputSkew", "defaultOutputSkew"]),
    (class_.mk "RandSeqProductionSymbol" ["Symbol", "Scope"]
      ["arguments", "rules", "returnType"]),
    (class_.mk "RandSeqProductionSymbol::ProdBase" []
      ["kind"]),
    (class_.mk "RandSeqProductionSymbol::ProdItem" ["RandSeqProductionSymbol::ProdBase"]
      ["target", "args"]),
    (class_.mk "RandSeqProductionSymbol::CodeBlockProd" ["RandSeqProductionSymbol::ProdBase"]
      ["block"]),
    (class_.mk "RandSeqProductionSymbol::IfElseProd" ["RandSeqProductionSymbol::ProdBase"]
      ["expr", "ifItem", "elseItem"]),
    (class_.mk "RandSeqProductionSymbol::RepeatProd" ["RandSeqProductionSymbol::ProdBase"]
      ["expr", "item"]),
    (class_.mk "RandSeqProductionSymbol::CaseItem" []
      ["expressions", "item"]),
    (class_.mk "RandSeqProductionSymbol::CaseProd" ["RandSeqProductionSymbol::ProdBase"]
      ["expr", "items", "defaultItem"]),
    (class_.mk "RandSeqProductionSymbol::Rule" []
      ["ruleBlock", "prods", "weightExpr", "randJoinExpr", "codeBlock", "isRandJoin"]),
    (class_.mk "CoverageOptionSetter" []
      ["isTypeOption", "name", "expression"]),
    (class_.mk "CovergroupBodySymbol" ["Symbol", "Scope"]
      ["options"]),
    (class_.mk "CoverageBinSymbol" ["Symbol"]
      ["binsKind", "isArray", "isWildcard", "isDefault", "isDefaultSequence", "iffExpr",
      "numberOfBinsExpr", "setCoverageExpr", "withExpr", "crossSelectExpr", "values"]),
    (class_.mk "CoverageBinSymbol::TransRangeList" []
      ["items", "repeatFrom", "repeatTo", "repeatKind"]),
    (class_.mk "CoverpointSymbol" ["Symbol", "Scope"]
      ["options", "type", "coverageExpr", "iffExpr"]),
    (class_.mk "CoverCrossBodySymbol" ["Symbol", "Scope"]
      ["crossQueueType"]),
    (class_.mk "CoverCrossSymbol" ["Symbol", "Scope"]
      ["options", "targets", "iffExpr"]) ]

/-- Position of a type among the registrations. -/
def registeredAt (registry : List class_) (type : String) : Option Nat :=
  registry.findIdx? (fun r => r.type == type)

/-- Every base named by a registration is itself registered at an earlier
position of the list `done ++ rest`, `done` being the registrations already
made, latest first. -/
def basesRegisteredFirst : List class_ → List class_ → Bool
  | _, [] => true
  | done, r :: rest =>
    r.bases.all (fun b => done.any (fun d => d.type == b)) &&
      basesRegisteredFirst (r :: done) rest

/-- The attributes Python finds on a registered type: its own and those of
its bases, through at most `fuel` levels of inheritance. -/
def attributesOf (registry : List class_) : Nat → String → List String
  | 0, _ => []
  | fuel + 1, type =>
    match registry.find? (fun r => r.type == type) with
    | none => []
    | some r => r.attrs ++ r.bases.flatMap (attributesOf registry fuel)

/-- The registration of `base` comes before that of `derived`. -/
def registeredBefore (registry : List class_) (base derived : String) : Bool :=
  match registeredAt registry base, registeredAt registry derived with
  | some i, some j => decide (i < j)
  | _, _ => false

/-- Direct inheritance among the registered types: `base` is named as a base
in the registration of `derived`. -/
def IsBaseOf (registry : List class_) (derived base : String) : Prop :=
  ∃ r ∈ registry, r.type = derived ∧ base ∈ r.bases

/-! ## Concrete instances -/

/-- A scope with two members, for the concrete instances below. -/
def sampleScope : Scope :=
  ⟨[⟨⟨1⟩, "clk"⟩, ⟨⟨2⟩, "rst"⟩], by decide⟩

/-- A design three scopes deep: the root declares `top`; the body of `top`
declares `clk` and the instance `u1`; the body of `u1`, an element of an
instance array with index 2, declares `q`. -/
def sampleDesign : Compilation :=
  { scopes :=
      [ ⟨⟨[⟨⟨1⟩, "top"⟩], by decide⟩, [.scope 1], none, []⟩,
        ⟨⟨[⟨⟨2⟩, "clk"⟩, ⟨⟨1⟩, "u1"⟩], by decide⟩, [.plain, .scope 2], some 0, []⟩,
        ⟨⟨[⟨⟨2⟩, "q"⟩], by decide⟩, [], some 1, []⟩ ],
    root := 0 }

/-- The array indices of `sampleDesign`: `u1` is element 2 of its array. -/
def sampleArrayPath (sym : SymbolRef) : List Int :=
  if sym = ⟨1, 1⟩ then [2] else []

/-- The declarations that build the sample design: `top` in the root; `clk`
and the instance `u1` in the body of `top`; `q` in the body of `u1`. -/
def sampleSteps : List (ScopeId × Declaration) :=
  [ (0, .scope ⟨⟨1⟩, "top"⟩), (1, .member ⟨⟨2⟩, "clk"⟩), (1, .scope ⟨⟨1⟩, "u1"⟩),
    (2, .member ⟨⟨2⟩, "q"⟩) ]

/-! ## Library facts about the iterators -/

theorem distance_to_end (l : iterator) : distance l [] = some (l.length : Int) := by
  induction l with
  | nil => simp [distance]
  | cons s rest ih => simp [distance, ih]

theorem advance_eq_drop (k : Nat) (l : iterator) (h : k ≤ l.length) :
    advance k l = some (l.drop k) := by
  induction k generalizing l with
  | zero => simp [advance]
  | succ k ih =>
    cases l with
    | nil => simp at h
    | cons s rest =>
      have h1 : k ≤ rest.length := by simpa using h
      simp [advance, iterator.incr, ih rest h1]

theorem deref_drop (k : Nat) (l : iterator) : iterator.deref (l.drop k) = l[k]? := by
  induction k generalizing l with
  | zero => cases l <;> simp [iterator.deref]
  | succ k ih =>
    cases l with
    | nil => simp [iterator.deref]
    | cons s rest => simpa using ih rest

theorem ptrdiff_t_small (i : Nat) (h : i < 2 ^ 63) : ptrdiff_t i = (i : Int) := by
  have h1 : i % SIZE_LIMIT = i := Nat.mod_eq_of_lt (by unfold SIZE_LIMIT; omega)
  unfold ptrdiff_t
  rw [h1, if_pos h]

theorem ptrdiff_t_large (i : Nat) (h1 : 2 ^ 63 ≤ i) (h2 : i < 2 ^ 64) :
    ptrdiff_t i = (i : Int) - 2 ^ 64 := by
  have h3 : i % SIZE_LIMIT = i := Nat.mod_eq_of_lt (by unfold SIZE_LIMIT; omega)
  have h4 : ¬ i < 2 ^ 63 := by omega
  unfold ptrdiff_t
  rw [h3, if_neg h4]
  simp [SIZE_LIMIT]

theorem size_members (S : Scope) : S.members.size = some (S.memberList.length : Int) := by
  simp [iterator_range.size, Scope.members, distance_to_end]

theorem getitem_unfold (S : Scope) (i : Nat) :
    S.__getitem__ i =
      if ptrdiff_t i ≥ (S.memberList.length : Int) then .index_error
      else
        match (next S.memberList (ptrdiff_t i)).bind iterator.deref with
        | some sym => .ok sym
        | none => .undefinedBehaviour := by
  unfold Scope.__getitem__
  simp only [size_members]
  rfl

/-- What `__getitem__` does on every `size_t` index, by cases on the index. -/
theorem getitem_cases (S : Scope) (i : Nat) (hi : i < 2 ^ 64) :
    S.__getitem__ i =
      if h : i < S.memberList.length then .ok (S.memberList.get ⟨i, h⟩)
      else if i < 2 ^ 63 then .index_error
      else .undefinedBehaviour := by
  have hfit := S.fits
  rw [getitem_unfold]
  by_cases hsmall : i < 2 ^ 63
  · rw [ptrdiff_t_small i hsmall]
    by_cases hlt : i < S.memberList.length
    · have hnot : ¬ ((i : Int) ≥ (S.memberList.length : Int)) := by omega
      have hnext : next S.memberList (i : Int) = some (S.memberList.drop i) := by
        have : ¬ ((i : Int) < 0) := by omega
        simp [next, this, advance_eq_drop i S.memberList (Nat.le_of_lt hlt)]
      rw [if_neg hnot, dif_pos hlt, hnext]
      simp [deref_drop, List.getElem?_eq_getElem hlt]
    · have hge : (i : Int) ≥ (S.memberList.length : Int) := by omega
      rw [if_pos hge, dif_neg hlt, if_pos hsmall]
  · rw [ptrdiff_t_large i (by omega) hi]
    have hlt : ¬ i < S.memberList.length := by omega
    have hnot : ¬ ((i : Int) - 2 ^ 64 ≥ (S.memberList.length : Int)) := by omega
    have hneg : (i : Int) - 2 ^ 64 < 0 := by omega
    rw [if_neg hnot, dif_neg hlt, if_neg hsmall]
    unfold next
    rw [if_pos hneg]
    rfl

/-- After the first call, the state sits on the element it has just returned. -/
theorem iterate_running (l : iterator) (s : Symbol) (fuel : Nat) (h : l.length < fuel) :
    iterate fuel { it := s :: l, last := [], first_or_done := false } = some l := by
  induction l generalizing s fuel with
  | nil =>
    cases fuel with
    | zero => simp at h
    | succ fuel => simp [iterate, iterator_state.__next__, iterator.incr]
  | cons t rest ih =>
    cases fuel with
    | zero => simp at h
    | succ fuel =>
      have h1 : rest.length < fuel := by simpa using h
      simp [iterate, iterator_state.__next__, iterator.incr, iterator.deref, ih t fuel h1]

/-- A fresh iteration yields the members, for every fuel above their number. -/
theorem iterate_iter (S : Scope) (fuel : Nat) (h : S.memberList.length < fuel) :
    iterate fuel S.__iter__ = some S.memberList := by
  cases fuel with
  | zero => simp at h
  | succ fuel =>
    cases hm : S.memberList with
    | nil => simp [iterate, iterator_state.__next__, Scope.__iter__, Scope.members, hm]
    | cons s rest =>
      have h1 : rest.length < fuel := by simpa [hm] using h
      simp [iterate, iterator_state.__next__, Scope.__iter__, Scope.members, hm,
        iterator.deref, iterate_running rest s fuel h1]

theorem len_eq (S : Scope) : S.__len__ = .ok (S.memberList.length : Int) := by
  unfold Scope.__len__
  rw [size_members]

theorem step_scope (σ : Session) (call : Call) : (σ.step call).scope = σ.scope := by
  cases call with
  | iter => rfl
  | next k =>
    simp only [Session.step]
    split <;> rfl

theorem run_scope (calls : List Call) (σ : Session) : (σ.run calls).scope = σ.scope := by
  induction calls generalizing σ with
  | nil => rfl
  | cons call rest ih =>
    have h := ih (σ.step call)
    rw [step_scope] at h
    exact h

/-- An index above the member count and below `2 ^ 63` raises the index error. -/
theorem getitem_above_count (S : Scope) (i : Nat) (h1 : S.memberList.length ≤ i)
    (h2 : i < 2 ^ 63) : S.__getitem__ i = .index_error := by
  rw [getitem_cases S i (by omega), dif_neg (by omega), if_pos h2]

/-- An index of `2 ^ 63` or more passes the bound check and reaches `std::next`
with a negative count, on every scope. -/
theorem getitem_wrapped (S : Scope) (i : Nat) (h1 : 2 ^ 63 ≤ i) (h2 : i < 2 ^ 64) :
    S.__getitem__ i = .undefinedBehaviour := by
  have hfit := S.fits
  rw [getitem_cases S i h2, dif_neg (by omega), if_neg (by omega)]

/-! ## Facts about the search of a member by name -/

theorem firstNamed_some (name : String) (keep : Nat → Bool) (l : List Symbol) (start i : Nat)
    (h : firstNamed name keep l start = some i) :
    start ≤ i ∧ (∃ s, l[i - start]? = some s ∧ s.name = name) ∧ keep i = true ∧
      ∀ j s, j < i - start → l[j]? = some s → ¬ (s.name = name ∧ keep (start + j) = true) := by
  induction l generalizing start with
  | nil => simp [firstNamed] at h
  | cons x rest ih =>
    unfold firstNamed at h
    by_cases hx : x.name = name ∧ keep start = true
    · rw [if_pos hx] at h
      injection h with h
      subst h
      refine ⟨Nat.le_refl _, ⟨x, by simp, hx.1⟩, hx.2, ?_⟩
      intro j s hj
      omega
    · rw [if_neg hx] at h
      obtain ⟨hle, ⟨s, hs, hname⟩, hkeep, hmin⟩ := ih (start + 1) h
      have hpos : i - start = (i - (start + 1)) + 1 := by omega
      refine ⟨by omega, ⟨s, ?_, hname⟩, hkeep, ?_⟩
      · rw [hpos]
        simpa using hs
      · intro j t hj ht
        cases j with
        | zero =>
          simp at ht
          subst ht
          simpa using hx
        | succ j =>
          have h1 : j < i - (start + 1) := by omega
          have h2 : rest[j]? = some t := by simpa using ht
          have h3 := hmin j t h1 h2
          have h4 : start + 1 + j = start + (j + 1) := by omega
          rw [h4] at h3
          exact h3

theorem firstNamed_none (name : String) (keep : Nat → Bool) (l : List Symbol) (start : Nat)
    (h : firstNamed name keep l start = none) :
    ∀ j s, l[j]? = some s → ¬ (s.name = name ∧ keep (start + j) = true) := by
  induction l generalizing start with
  | nil => intro j s hs; simp at hs
  | cons x rest ih =>
    unfold firstNamed at h
    by_cases hx : x.name = name ∧ keep start = true
    · rw [if_pos hx] at h
      simp at h
    · rw [if_neg hx] at h
      intro j s hs
      cases j with
      | zero =>
        simp at hs
        subst hs
        simpa using hx
      | succ j =>
        have h2 : rest[j]? = some s := by simpa using hs
        have h3 := ih (start + 1) h j s h2
        have h4 : start + 1 + j = start + (j + 1) := by omega
        rw [h4] at h3
        exact h3

theorem boundsOverlap_comm (a b : List DriverRange) : boundsOverlap a b = boundsOverlap b a := by
  induction a generalizing b with
  | nil => cases b <;> simp [boundsOverlap]
  | cons x xs ih =>
    cases b with
    | nil => simp [boundsOverlap]
    | cons y ys =>
      simp only [boundsOverlap, ih ys]
      congr 1
      simp only [DriverRange.intersects]
      exact Bool.and_comm _ _

/-! ## Facts about the representation and the registrations -/

/-- Two texts that start with letters and continue with the same non-letter
agree on the letters and on what follows the non-letter. -/
theorem split_at_first_nonletter (p : Char → Bool) (c : Char) (hc : p c = false)
    (k1 k2 r1 r2 : List Char) (h1 : ∀ ch ∈ k1, p ch = true) (h2 : ∀ ch ∈ k2, p ch = true)
    (h : k1 ++ c :: r1 = k2 ++ c :: r2) : k1 = k2 ∧ r1 = r2 := by
  induction k1 generalizing k2 with
  | nil =>
    cases k2 with
    | nil => simpa using h
    | cons y ys =>
      simp at h
      have hy := h2 y (by simp)
      rw [← h.1, hc] at hy
      simp at hy
  | cons x xs ih =>
    cases k2 with
    | nil =>
      simp at h
      have hx := h1 x (by simp)
      rw [h.1, hc] at hx
      simp at hx
    | cons y ys =>
      simp at h
      obtain ⟨hxy, hrest⟩ := h
      obtain ⟨hk, hr⟩ := ih ys (fun ch hch => h1 ch (by simp [hch]))
        (fun ch hch => h2 ch (by simp [hch])) hrest
      exact ⟨by rw [hxy, hk], hr⟩

/-- The text `__repr__` builds, as a list of characters. -/
theorem repr_data (toString : SymbolKind → String) (self : Symbol) :
    ∃ out, self.__repr__ toString = some out ∧
      out.data = "Symbol(SymbolKind.".data ++ ((toString self.kind).data ++
        (',' :: ' ' :: '\"' :: (self.name.data ++ ['\"', ')']))) := by
  refine ⟨_, rfl, ?_⟩
  simp [fmt.vformat]

set_option maxRecDepth 100000 in
/-- A registration names only bases that come earlier, entry by entry. -/
theorem bases_before : ∀ r ∈ registerSymbols, ∀ b ∈ r.bases,
    registeredBefore registerSymbols b r.type = true := by
  decide

/-- Position of a type in `registerSymbols`, zero when it is not registered. -/
theorem isBaseOf_rank (derived base : String) (h : IsBaseOf registerSymbols derived base) :
    (registeredAt registerSymbols base).getD 0 < (registeredAt registerSymbols derived).getD 0 := by
  obtain ⟨r, hr, ht, hb⟩ := h
  have hbefore := bases_before r hr base hb
  rw [ht] at hbefore
  unfold registeredBefore at hbefore
  cases h1 : registeredAt registerSymbols base with
  | none => rw [h1] at hbefore; simp at hbefore
  | some i =>
    cases h2 : registeredAt registerSymbols derived with
    | none => rw [h1, h2] at hbefore; simp at hbefore
    | some j =>
      rw [h1, h2] at hbefore
      simpa using hbefore

theorem transGen_rank (x y : String) (h : Relation.TransGen (IsBaseOf registerSymbols) x y) :
    (registeredAt registerSymbols y).getD 0 < (registeredAt registerSymbols x).getD 0 := by
  induction h with
  | single h => exact isBaseOf_rank _ _ h
  | tail _ h ih => exact Nat.lt_trans (isBaseOf_rank _ _ h) ih

/-! ## Facts about the parent walk -/

theorem ancestor_add (c : Compilation) (i d : Nat) (sid : ScopeId) :
    c.ancestor (i + d) sid = (c.ancestor i sid).bind (c.ancestor d) := by
  induction i generalizing sid with
  | zero => simp [Compilation.ancestor]
  | succ i ih =>
    have h : i + 1 + d = (i + d) + 1 := by omega
    rw [h]
    simp only [Compilation.ancestor]
    cases c.parentOf sid with
    | none => rfl
    | some p => simpa using ih p

/-- What the tree invariant says of one scope of the compilation. -/
theorem isTree_at (c : Compilation) (htree : c.isTree = true) (sid : ScopeId)
    (hsid : sid < c.scopes.length) :
    (∀ p, c.parentOf sid = some p → p < c.scopes.length ∧ (c.asSymbol sid).isSome = true) ∧
    (c.parentOf sid = none → sid = c.root) ∧
    (∀ k, k < c.scopes.length → c.ancestor (k + 1) sid ≠ some sid) := by
  unfold Compilation.isTree at htree
  rw [List.all_eq_true] at htree
  have h := htree sid (List.mem_range.mpr hsid)
  rw [Bool.and_eq_true, List.all_eq_true] at h
  obtain ⟨hp, hcyc⟩ := h
  refine ⟨?_, ?_, ?_⟩
  · intro p hpar
    rw [hpar] at hp
    simpa using hp
  · intro hpar
    rw [hpar] at hp
    simpa using hp
  · intro k hk
    have := hcyc k (List.mem_range.mpr hk)
    simpa using this

theorem ancestor_lt (c : Compilation) (htree : c.isTree = true) (k : Nat) (sid a : ScopeId)
    (hsid : sid < c.scopes.length) (h : c.ancestor k sid = some a) : a < c.scopes.length := by
  induction k generalizing sid with
  | zero =>
    have hsa : sid = a := by simpa [Compilation.ancestor] using h
    rw [← hsa]
    exact hsid
  | succ k ih =>
    simp only [Compilation.ancestor] at h
    cases hp : c.parentOf sid with
    | none => rw [hp] at h; simp at h
    | some p =>
      rw [hp] at h
      exact ih p ((isTree_at c htree sid hsid).1 p hp).1 (by simpa using h)

/-- No scope occurs twice among the ancestors of a scope of a tree. -/
theorem ancestor_no_repeat (c : Compilation) (htree : c.isTree = true) (sid : ScopeId)
    (hsid : sid < c.scopes.length) (i j : Nat) (hij : i < j) (hj : j ≤ c.scopes.length)
    (a : ScopeId) (hi : c.ancestor i sid = some a) : c.ancestor j sid ≠ some a := by
  intro hja
  have hsplit : j = i + ((j - i - 1) + 1) := by omega
  rw [hsplit, ancestor_add, hi] at hja
  have ha := ancestor_lt c htree i sid a hsid hi
  exact (isTree_at c htree a ha).2.2 (j - i - 1) (by omega) (by simpa using hja)

/-- In a tree the walk from a scope meets a scope without parent within as
many steps as there are scopes. -/
theorem reaches_root (c : Compilation) (htree : c.isTree = true) (sid : ScopeId)
    (hsid : sid < c.scopes.length) :
    ∃ k a, k < c.scopes.length ∧ c.ancestor k sid = some a ∧ c.parentOf a = none := by
  by_contra hno
  have hgo : ∀ k, k ≤ c.scopes.length → ∃ a, c.ancestor k sid = some a := by
    intro k
    induction k with
    | zero => intro _; exact ⟨sid, rfl⟩
    | succ k ih =>
      intro hk
      obtain ⟨a, ha⟩ := ih (by omega)
      cases hp : c.parentOf a with
      | none => exact absurd ⟨k, a, by omega, ha, hp⟩ hno
      | some p =>
        refine ⟨p, ?_⟩
        rw [ancestor_add, ha]
        simp [Compilation.ancestor, hp]
  have hlt : ∀ k : Fin (c.scopes.length + 1),
      (c.ancestor k.val sid).getD 0 < c.scopes.length := by
    intro k
    obtain ⟨a, ha⟩ := hgo k.val (by omega)
    rw [ha]
    exact ancestor_lt c htree k.val sid a hsid ha
  obtain ⟨x, y, hxy, hmap⟩ := Fintype.exists_ne_map_eq_of_card_lt
    (fun k : Fin (c.scopes.length + 1) =>
      (⟨(c.ancestor k.val sid).getD 0, hlt k⟩ : Fin c.scopes.length)) (by simp)
  have hval : (c.ancestor x.val sid).getD 0 = (c.ancestor y.val sid).getD 0 := by
    simpa using congrArg Fin.val hmap
  obtain ⟨a, ha⟩ := hgo x.val (by omega)
  obtain ⟨b, hb⟩ := hgo y.val (by omega)
  rw [ha, hb] at hval
  simp at hval
  subst hval
  have hne : x.val ≠ y.val := fun h => hxy (Fin.ext h)
  rcases Nat.lt_or_gt_of_ne hne with hlt1 | hlt1
  · exact ancestor_no_repeat c htree sid hsid x.val y.val hlt1 (by omega) a ha hb
  · exact ancestor_no_repeat c htree sid hsid y.val x.val hlt1 (by omega) a hb ha

/-- The walk along `k` parent links that ends at a scope without parent. -/
theorem scopeChain_of_ancestor (c : Compilation) (k : Nat) (sid a : ScopeId)
    (h : c.ancestor k sid = some a) (hroot : c.parentOf a = none) :
    ∃ chain, (∀ fuel, k < fuel → c.scopeChain fuel sid = some chain) ∧
      chain.length = k + 1 ∧ (∀ i, i ≤ k → chain[i]? = c.ancestor i sid) ∧
      chain.getLast? = some a := by
  induction k generalizing sid with
  | zero =>
    simp [Compilation.ancestor] at h
    subst h
    refine ⟨[sid], ?_, rfl, ?_, rfl⟩
    · intro fuel hf
      cases fuel with
      | zero => omega
      | succ fuel => simp [Compilation.scopeChain, hroot]
    · intro i hi
      have : i = 0 := by omega
      subst this
      simp [Compilation.ancestor]
  | succ k ih =>
    simp only [Compilation.ancestor] at h
    cases hp : c.parentOf sid with
    | none => rw [hp] at h; simp at h
    | some p =>
      rw [hp] at h
      obtain ⟨chain, hchain, hlen, hget, hlast⟩ := ih p (by simpa using h)
      refine ⟨sid :: chain, ?_, by simp [hlen], ?_, ?_⟩
      · intro fuel hf
        cases fuel with
        | zero => omega
        | succ fuel => simp [Compilation.scopeChain, hp, hchain fuel (by omega)]
      · intro i hi
        cases i with
        | zero => simp [Compilation.ancestor]
        | succ i =>
          simp only [Compilation.ancestor, hp]
          simpa using hget i (by omega)
      · cases chain with
        | nil => simp at hlen
        | cons x xs => simpa [List.getLast?_cons_cons] using hlast

/-- A symbol that exists lies in a scope of the compilation. -/
theorem scope_lt_of_symbolAt (c : Compilation) (sym : SymbolRef)
    (h : (c.symbolAt sym).isSome = true) : sym.scope < c.scopes.length := by
  by_contra hge
  have hnone : c.scopes[sym.scope]? = none := List.getElem?_eq_none (Nat.le_of_not_lt hge)
  simp [Compilation.symbolAt, Compilation.membersOf, hnone] at h

/-- The symbol of a scope is a member of the parent of the scope. -/
theorem asSymbol_scope (c : Compilation) (sid : ScopeId) (owner : SymbolRef)
    (h : c.asSymbol sid = some owner) : c.parentOf sid = some owner.scope := by
  unfold Compilation.asSymbol at h
  cases hp : c.parentOf sid with
  | none => rw [hp] at h; simp at h
  | some p =>
    rw [hp] at h
    simp only [Option.map_eq_some'] at h
    obtain ⟨i, _, hi⟩ := h
    rw [← hi]

/-! ## Facts about the paths -/

theorem intercalate_go_append (acc sep x : String) (l : List String) :
    String.intercalate.go acc sep (l ++ [x]) = String.intercalate.go acc sep l ++ sep ++ x := by
  induction l generalizing acc with
  | nil => simp [String.intercalate.go]
  | cons a rest ih => simp [String.intercalate.go, ih]

theorem intercalate_append_singleton (sep x : String) (l : List String) (h : l ≠ []) :
    sep.intercalate (l ++ [x]) = sep.intercalate l ++ sep ++ x := by
  cases l with
  | nil => exact absurd rfl h
  | cons a rest => simp [String.intercalate, intercalate_go_append]

/-- Where the walk by parent links ends, the walk by owning symbols ends. -/
theorem nameChain_of_scopeChain (c : Compilation) (fuel : Nat) (sym : SymbolRef)
    (scopes : List ScopeId) (h : c.scopeChain fuel sym.scope = some scopes) :
    ∃ chain, c.nameChain fuel sym = some chain := by
  induction fuel generalizing sym scopes with
  | zero => simp [Compilation.scopeChain] at h
  | succ fuel ih =>
    simp only [Compilation.nameChain]
    cases ho : c.asSymbol sym.scope with
    | none => exact ⟨[sym], rfl⟩
    | some owner =>
      have hp := asSymbol_scope c sym.scope owner ho
      simp only [Compilation.scopeChain, hp] at h
      cases hc : c.scopeChain fuel owner.scope with
      | none => rw [hc] at h; simp at h
      | some rest =>
        obtain ⟨chain, hchain⟩ := ih owner rest hc
        exact ⟨chain ++ [sym], by simp [hchain]⟩

/-- The buffer walk writes the dot-joined segments of the nesting chain. -/
theorem appendPath_eq_join (c : Compilation) (arrayPath : SymbolRef → List Int)
    (withIndices : Bool) (fuel : Nat) (sym : SymbolRef) (chain : List SymbolRef)
    (h : c.nameChain fuel sym = some chain) :
    chain ≠ [] ∧ chain.getLast? = some sym ∧
    c.appendPath arrayPath withIndices fuel sym "" =
      some (".".intercalate (chain.map (c.segment arrayPath withIndices))) := by
  induction fuel generalizing sym chain with
  | zero => simp [Compilation.nameChain] at h
  | succ fuel ih =>
    simp only [Compilation.nameChain] at h
    simp only [Compilation.appendPath]
    cases ho : c.asSymbol sym.scope with
    | none =>
      rw [ho] at h
      injection h with h
      subst h
      simp [String.intercalate, String.intercalate.go]
    | some owner =>
      rw [ho] at h
      dsimp only at h ⊢
      cases hc : c.nameChain fuel owner with
      | none => rw [hc] at h; simp at h
      | some rest =>
        rw [hc] at h
        injection h with h
        subst h
        obtain ⟨hne, _, hpath⟩ := ih owner rest hc
        refine ⟨by simp, by simp, ?_⟩
        have hmap : rest.map (c.segment arrayPath withIndices) ≠ [] := by simpa using hne
        rw [hpath, List.map_append, List.map_singleton,
          intercalate_append_singleton "." _ _ hmap]
        rfl

/-- The nesting chain starts at a symbol whose scope stands for no symbol,
and that scope is an ancestor of the scope of the symbol the chain is for. -/
theorem nameChain_head (c : Compilation) (fuel : Nat) (sym : SymbolRef)
    (chain : List SymbolRef) (h : c.nameChain fuel sym = some chain) :
    ∃ first k, chain.head? = some first ∧ c.asSymbol first.scope = none ∧
      c.ancestor k sym.scope = some first.scope := by
  induction fuel generalizing sym chain with
  | zero => simp [Compilation.nameChain] at h
  | succ fuel ih =>
    simp only [Compilation.nameChain] at h
    cases ho : c.asSymbol sym.scope with
    | none =>
      rw [ho] at h
      injection h with h
      subst h
      exact ⟨sym, 0, rfl, ho, rfl⟩
    | some owner =>
      rw [ho] at h
      dsimp only at h ⊢
      cases hc : c.nameChain fuel owner with
      | none => rw [hc] at h; simp at h
      | some rest =>
        rw [hc] at h
        injection h with h
        subst h
        obtain ⟨first, k, hhead, hnone, hanc⟩ := ih owner rest hc
        refine ⟨first, k + 1, ?_, hnone, ?_⟩
        · cases rest with
          | nil => simp at hhead
          | cons x xs => simpa using hhead
        · simp only [Compilation.ancestor, asSymbol_scope c sym.scope owner ho]
          simpa using hanc

/-- The walk from a scope of a tree: it ends at the root, within as many
steps as there are scopes, and visits no scope twice. -/
theorem scopeChain_tree (c : Compilation) (htree : c.isTree = true) (sid : ScopeId)
    (hsid : sid < c.scopes.length) :
    ∃ chain, (∀ fuel, c.scopes.length ≤ fuel → c.scopeChain fuel sid = some chain) ∧
      chain.head? = some sid ∧ chain.getLast? = some c.root ∧ chain.Nodup ∧
      chain.length ≤ c.scopes.length ∧
      (∀ i, i < chain.length → chain[i]? = c.ancestor i sid) := by
  obtain ⟨k, a, hk, hanc, hroot⟩ := reaches_root c htree sid hsid
  obtain ⟨chain, hchain, hlen, hget, hlast⟩ := scopeChain_of_ancestor c k sid a hanc hroot
  have ha : a = c.root :=
    (isTree_at c htree a (ancestor_lt c htree k sid a hsid hanc)).2.1 hroot
  refine ⟨chain, fun fuel hf => hchain fuel (by omega), ?_, by rw [hlast, ha], ?_,
    by omega, fun i hi => hget i (by omega)⟩
  · have h0 := hget 0 (by omega)
    cases chain with
    | nil => simp at hlen
    | cons x xs => simpa [Compilation.ancestor] using h0
  · rw [List.nodup_iff_getElem?_ne_getElem?]
    intro i j hij hj
    have hi : i < chain.length := by omega
    rw [hget i (by omega), hget j (by omega)]
    have hsome : chain[i]? = some chain[i] := List.getElem?_eq_getElem hi
    rw [hget i (by omega)] at hsome
    rw [hsome]
    exact fun heq => ancestor_no_repeat c htree sid hsid i j hij (by omega) _ hsome heq.symm

/-! ## Facts about masks -/

theorem or_eq_zero_left (a b : Nat) (h : a ||| b = 0) : a = 0 := by
  apply Nat.eq_of_testBit_eq
  intro i
  have hbit := congrArg (fun n => n.testBit i) h
  simp only [Nat.testBit_or, Nat.zero_testBit, Bool.or_eq_false_iff] at hbit
  simp [hbit.1]

theorem or_ne_zero (a b : Nat) : (a ||| b != 0) = (a != 0 || b != 0) := by
  by_cases ha : a = 0
  · subst ha
    rw [Nat.zero_or]
    rfl
  · have hab : a ||| b ≠ 0 := fun h => ha (or_eq_zero_left a b h)
    have h1 : (a ||| b != 0) = true := by simpa using hab
    have h2 : (a != 0) = true := by simpa using ha
    rw [h1, h2]
    rfl

/-- A mask `x | y` meets the bits of a flag exactly when `x` or `y` does,
whatever the bits of the flag are. -/
theorem has_or (x y : bitmask) (f : LookupFlags) :
    (x.or y).has f = (x.has f || y.has f) := by
  simp only [bitmask.has, bitmask.or]
  rw [Nat.and_comm, Nat.and_or_distrib_left, Nat.and_comm f.underlying x.m_bits,
    Nat.and_comm f.underlying y.m_bits]
  exact or_ne_zero _ _

/-! ## Facts about the lookup -/

theorem wellLinked_initial : Compilation.initial.WellLinked := by
  refine ⟨rfl, by decide, ?_⟩
  intro sid node h
  cases sid with
  | zero =>
    simp [Compilation.initial] at h
    subst h
    exact ⟨rfl, fun _ => rfl, fun p hp => by simp at hp⟩
  | succ n => simp [Compilation.initial] at h

/-- Replacing a scope by one with the same parent, parallel links and no link
lost keeps the shape. -/
theorem wellLinked_set (c : Compilation) (h : c.WellLinked) (sid : Nat)
    (node node' : ScopeNode) (hnode : c.scopes[sid]? = some node)
    (hparent : node'.parent = node.parent)
    (hlen : node'.links.length = node'.scope.memberList.length)
    (hlinks : ∀ l ∈ node.links, l ∈ node'.links) :
    Compilation.WellLinked { c with scopes := c.scopes.set sid node' } := by
  obtain ⟨hroot, hpos, hnodes⟩ := h
  have hsid : sid < c.scopes.length := (List.getElem?_eq_some.mp hnode).1
  refine ⟨hroot, by simpa using hpos, ?_⟩
  intro s nd hs
  simp only [List.getElem?_set] at hs
  have hparentOf : ∀ p : Nat, p < s → ∀ pnode, c.scopes[p]? = some pnode →
      MemberLink.scope s ∈ pnode.links →
      ∃ pnode', (c.scopes.set sid node')[p]? = some pnode' ∧
        MemberLink.scope s ∈ pnode'.links := by
    intro p _ pnode hp hmem
    by_cases hps : sid = p
    · subst hps
      rw [hnode] at hp
      injection hp with hp
      subst hp
      exact ⟨node', by simp [List.getElem?_set, hsid], hlinks _ hmem⟩
    · exact ⟨pnode, by simp [List.getElem?_set, hps, hp], hmem⟩
  by_cases hss : sid = s
  · subst hss
    rw [if_pos rfl, if_pos hsid] at hs
    injection hs with hs
    subst hs
    obtain ⟨_, hnone, hsome⟩ := hnodes sid node hnode
    refine ⟨hlen, fun hp => hnone (by rw [← hparent]; exact hp), ?_⟩
    intro p hp
    rw [hparent] at hp
    obtain ⟨hlt, pnode, hpn, hmem⟩ := hsome p hp
    exact ⟨hlt, hparentOf p hlt pnode hpn hmem⟩
  · rw [if_neg hss] at hs
    obtain ⟨hl, hnone, hsome⟩ := hnodes s nd hs
    refine ⟨hl, hnone, ?_⟩
    intro p hp
    obtain ⟨hlt, pnode, hpn, hmem⟩ := hsome p hp
    exact ⟨hlt, hparentOf p hlt pnode hpn hmem⟩

/-- Allocating a new empty scope under a scope that has it among its members
keeps the shape. -/
theorem wellLinked_append (c : Compilation) (h : c.WellLinked) (sid : Nat)
    (pnode : ScopeNode) (hp : c.scopes[sid]? = some pnode)
    (hmem : MemberLink.scope c.scopes.length ∈ pnode.links) :
    Compilation.WellLinked
      { c with scopes := c.scopes ++ [⟨⟨[], by decide⟩, [], some sid, []⟩] } := by
  obtain ⟨hroot, hpos, hnodes⟩ := h
  have hsid : sid < c.scopes.length := (List.getElem?_eq_some.mp hp).1
  refine ⟨hroot, by simp, ?_⟩
  intro s nd hs
  simp only at hs
  by_cases hlt : s < c.scopes.length
  · rw [List.getElem?_append_left hlt] at hs
    obtain ⟨hl, hnone, hsome⟩ := hnodes s nd hs
    refine ⟨hl, hnone, ?_⟩
    intro p hpar
    obtain ⟨hps, pn, hpn, hm⟩ := hsome p hpar
    refine ⟨hps, pn, ?_, hm⟩
    simp only
    rw [List.getElem?_append_left (by omega)]
    exact hpn
  · rw [List.getElem?_append_right (by omega)] at hs
    have hs0 : s - c.scopes.length = 0 := by
      by_contra hne
      have : s - c.scopes.length = (s - c.scopes.length - 1) + 1 := by omega
      rw [this] at hs
      simp at hs
    rw [hs0] at hs
    simp at hs
    subst hs
    have hseq : s = c.scopes.length := by omega
    refine ⟨rfl, fun hpar => by simp at hpar, ?_⟩
    intro p hpar
    simp at hpar
    subst hpar
    refine ⟨by omega, pnode, ?_, by rw [hseq]; exact hmem⟩
    simp only
    rw [List.getElem?_append_left hsid]
    exact hp

/-- What a successful insertion does to the table. -/
theorem addMember_some (c c1 : Compilation) (sid : Nat) (sym : Symbol) (link : MemberLink)
    (h : c.addMember sid sym link = some c1) :
    ∃ node node', c.scopes[sid]? = some node ∧ node'.parent = node.parent ∧
      node'.links = node.links ++ [link] ∧
      node'.scope.memberList = node.scope.memberList ++ [sym] ∧
      c1 = { c with scopes := c.scopes.set sid node' } := by
  unfold Compilation.addMember at h
  cases hs : c.scopes[sid]? with
  | none => rw [hs] at h; simp at h
  | some node =>
    rw [hs] at h
    simp only at h
    split at h
    · rename_i hfit
      injection h with h
      exact ⟨node, { node with
          scope := ⟨node.scope.memberList ++ [sym], hfit⟩
          links := node.links ++ [link] }, rfl, rfl, rfl, rfl, h.symm⟩
    · simp at h

theorem wellLinked_addMember (c c1 : Compilation) (hc : c.WellLinked) (sid : Nat)
    (sym : Symbol) (link : MemberLink) (h : c.addMember sid sym link = some c1) :
    c1.WellLinked := by
  obtain ⟨node, node', hnode, hparent, hlinks, hmembers, hc1⟩ :=
    addMember_some c c1 sid sym link h
  rw [hc1]
  refine wellLinked_set c hc sid node node' hnode hparent ?_ ?_
  · rw [hlinks, hmembers, List.length_append, List.length_append,
      (hc.2.2 sid node hnode).1]
    rfl
  · intro l hl
    rw [hlinks]
    exact List.mem_append_left _ hl

/-- Every step of the declaration phase keeps the shape. -/
theorem wellLinked_declare (c : Compilation) (hc : c.WellLinked) (sid : Nat)
    (decl : Declaration) : (c.declare sid decl).WellLinked := by
  cases decl with
  | member sym =>
    simp only [Compilation.declare]
    cases h : c.addMember sid sym .plain with
    | none => exact hc
    | some c1 => exact wellLinked_addMember c c1 hc sid sym _ h
  | explicitImport sym target =>
    simp only [Compilation.declare]
    cases h : c.addMember sid sym (.explicitImport target) with
    | none => exact hc
    | some c1 => exact wellLinked_addMember c c1 hc sid sym _ h
  | wildcardImport package =>
    simp only [Compilation.declare]
    cases hs : c.scopes[sid]? with
    | none => exact hc
    | some node =>
      exact wellLinked_set c hc sid node _ hs rfl (hc.2.2 sid node hs).1 (fun l hl => hl)
  | scope sym =>
    simp only [Compilation.declare]
    cases h : c.addMember sid sym (.scope c.scopes.length) with
    | none => exact hc
    | some c1 =>
      have hc1 := wellLinked_addMember c c1 hc sid sym _ h
      obtain ⟨node, node', hnode, _, hlinks, _, heq⟩ := addMember_some c c1 sid sym _ h
      have hsid : sid < c.scopes.length := (List.getElem?_eq_some.mp hnode).1
      have hlen : c1.scopes.length = c.scopes.length := by rw [heq]; simp
      have hp : c1.scopes[sid]? = some node' := by
        rw [heq]
        simp [List.getElem?_set, hsid]
      have hmem : MemberLink.scope c1.scopes.length ∈ node'.links := by
        rw [hlinks, hlen]
        simp
      exact wellLinked_append c1 hc1 sid node' hp hmem

theorem wellLinked_foldl (steps : List (ScopeId × Declaration)) (c : Compilation)
    (hc : c.WellLinked) :
    (steps.foldl (fun c step => c.declare step.1 step.2) c).WellLinked := by
  induction steps generalizing c with
  | nil => exact hc
  | cons step rest ih => exact ih _ (wellLinked_declare c hc step.1 step.2)

/-- The table elaboration builds has the shape. -/
theorem wellLinked_elaborate (steps : List (ScopeId × Declaration)) :
    (Compilation.elaborate steps).WellLinked :=
  wellLinked_foldl steps _ wellLinked_initial

theorem parentOf_lt (c : Compilation) (hc : c.WellLinked) (sid p : Nat)
    (h : c.parentOf sid = some p) : p < sid := by
  unfold Compilation.parentOf at h
  cases hs : c.scopes[sid]? with
  | none => rw [hs] at h; simp at h
  | some node =>
    rw [hs] at h
    exact ((hc.2.2 sid node hs).2.2 p h).1

theorem ancestor_succ_lt (c : Compilation) (hc : c.WellLinked) (k : Nat) (sid a : Nat)
    (h : c.ancestor (k + 1) sid = some a) : a < sid := by
  induction k generalizing sid with
  | zero =>
    simp only [Compilation.ancestor] at h
    cases hp : c.parentOf sid with
    | none => rw [hp] at h; simp at h
    | some p =>
      rw [hp] at h
      simp at h
      rw [← h]
      exact parentOf_lt c hc sid p hp
  | succ k ih =>
    rw [Compilation.ancestor] at h
    cases hp : c.parentOf sid with
    | none => rw [hp] at h; simp at h
    | some p =>
      rw [hp] at h
      have h1 := ih p (by simpa using h)
      have h2 := parentOf_lt c hc sid p hp
      omega

/-- A table of that shape keeps the tree invariant. -/
theorem isTree_of_wellLinked (c : Compilation) (hc : c.WellLinked) : c.isTree = true := by
  unfold Compilation.isTree
  rw [List.all_eq_true]
  intro sid hsid
  have hlt : sid < c.scopes.length := List.mem_range.mp hsid
  obtain ⟨node, hnode⟩ : ∃ node, c.scopes[sid]? = some node :=
    ⟨c.scopes[sid], List.getElem?_eq_getElem hlt⟩
  obtain ⟨_, hnone, hsome⟩ := hc.2.2 sid node hnode
  rw [Bool.and_eq_true, List.all_eq_true]
  constructor
  · have hpar : c.parentOf sid = node.parent := by simp [Compilation.parentOf, hnode]
    cases hp : node.parent with
    | none =>
      rw [hpar, hp]
      simp [hnone hp, hc.1]
    | some p =>
      rw [hpar, hp]
      obtain ⟨hps, pnode, hpn, hmem⟩ := hsome p hp
      have hplen := (hc.2.2 p pnode hpn).1
      obtain ⟨i, hi, hget⟩ := List.getElem_of_mem hmem
      have howner : (c.asSymbol sid).isSome = true := by
        unfold Compilation.asSymbol
        rw [hpar, hp]
        simp only [Option.isSome_map']
        rw [List.find?_isSome]
        refine ⟨i, ?_, ?_⟩
        · rw [List.mem_range]
          simp [Compilation.membersOf, hpn, ← hplen, hi]
        · simp [Compilation.linkOf, hpn, List.getElem?_eq_getElem hi, hget]
      simp only [howner, Bool.and_true, decide_eq_true_eq]
      exact Nat.lt_trans hps hlt
  · intro k _
    cases ha : c.ancestor (k + 1) sid with
    | none => simp
    | some a =>
      have hlta := ancestor_succ_lt c hc k sid a ha
      simp
      exact Nat.ne_of_lt hlta

/-- The symbol of a scope is an existing member of the parent whose link is
the scope. -/
theorem asSymbol_link (c : Compilation) (sid : ScopeId) (owner : SymbolRef)
    (h : c.asSymbol sid = some owner) :
    c.linkOf owner.scope owner.index = .scope sid ∧ (c.symbolAt owner).isSome = true := by
  unfold Compilation.asSymbol at h
  cases hp : c.parentOf sid with
  | none => rw [hp] at h; simp at h
  | some p =>
    rw [hp] at h
    simp only [Option.map_eq_some'] at h
    obtain ⟨i, hfind, hi⟩ := h
    have hpred := List.find?_some hfind
    have hmem := List.mem_of_find?_eq_some hfind
    rw [List.mem_range] at hmem
    rw [← hi]
    refine ⟨by simpa using hpred, ?_⟩
    simp [Compilation.symbolAt, List.getElem?_eq_getElem hmem]

/-- In the nesting chain every symbol is the member that stands for the scope
of the next, and every symbol above the last exists. -/
theorem nameChain_links (c : Compilation) (fuel : Nat) (sym : SymbolRef)
    (chain : List SymbolRef) (h : c.nameChain fuel sym = some chain) :
    chain.Chain' (fun a b => c.linkOf a.scope a.index = .scope b.scope) ∧
    chain.getLast? = some sym ∧
    ∀ a ∈ chain, a = sym ∨ (c.symbolAt a).isSome = true := by
  induction fuel generalizing sym chain with
  | zero => simp [Compilation.nameChain] at h
  | succ fuel ih =>
    simp only [Compilation.nameChain] at h
    cases ho : c.asSymbol sym.scope with
    | none =>
      rw [ho] at h
      injection h with h
      subst h
      exact ⟨List.chain'_singleton _, rfl, fun a ha => Or.inl (by simpa using ha)⟩
    | some owner =>
      rw [ho] at h
      dsimp only at h
      cases hc : c.nameChain fuel owner with
      | none => rw [hc] at h; simp at h
      | some rest =>
        rw [hc] at h
        injection h with h
        subst h
        obtain ⟨hchain, hlast, hex⟩ := ih owner rest hc
        obtain ⟨hlink, howner⟩ := asSymbol_link c sym.scope owner ho
        refine ⟨?_, by simp, ?_⟩
        · rw [List.chain'_append]
          refine ⟨hchain, List.chain'_singleton _, ?_⟩
          intro x hx y hy
          rw [hlast] at hx
          simp at hx hy
          subst hx
          subst hy
          exact hlink
        · intro a ha
          rw [List.mem_append] at ha
          rcases ha with ha | ha
          · rcases hex a ha with heq | hs
            · right; rw [heq]; exact howner
            · exact Or.inr hs
          · left; simpa using ha

theorem indexText_eq_foldr (indices : List Int) :
    indexText indices = indices.foldr (fun i text => "[" ++ toString i ++ "]" ++ text) "" := by
  induction indices with
  | nil => rfl
  | cons i rest ih => simp [indexText, ih]

theorem segment_eq (c : Compilation) (arrayPath : SymbolRef → List Int) (a : SymbolRef) :
    c.segment arrayPath true a =
      ((c.symbolAt a).map (fun d => d.name)).getD "" ++
        (arrayPath a).foldr (fun i text => "[" ++ toString i ++ "]" ++ text) "" ∧
    c.segment arrayPath false a = ((c.symbolAt a).map (fun d => d.name)).getD "" := by
  unfold Compilation.segment
  cases c.symbolAt a <;> simp [indexText_eq_foldr]

/-- In a table that keeps the tree invariant, the walk upward from a symbol
ends at the root, visits no scope twice and takes at most as many steps as
there are scopes, and both paths of the symbol are computed. -/
theorem walk_of_tree (c : Compilation) (arrayPath : SymbolRef → List Int)
    (sym : SymbolRef) (htree : c.isTree = true) (hsym : (c.symbolAt sym).isSome = true) :
    (∃ chain, (∀ fuel, c.scopes.length ≤ fuel → c.walkParents fuel sym = some chain) ∧
      chain.head? = some sym.scope ∧ chain.getLast? = some c.root ∧ chain.Nodup ∧
      chain.length ≤ c.scopes.length ∧
      (∀ i, i < chain.length → chain[i]? = c.ancestor i sym.scope)) ∧
    (∃ path, Symbol.hierarchicalPath c arrayPath sym = some path) ∧
    (∃ path, Symbol.lexicalPath c arrayPath sym = some path) := by
  have hsid := scope_lt_of_symbolAt c sym hsym
  obtain ⟨chain, hchain, hhead, hlast, hnodup, hlen, hget⟩ := scopeChain_tree c htree sym.scope hsid
  have hparent : c.getParentScope sym = some sym.scope := by
    unfold Compilation.getParentScope
    cases hs : c.symbolAt sym with
    | none => rw [hs] at hsym; simp at hsym
    | some _ => rfl
  obtain ⟨names, hnames⟩ :=
    nameChain_of_scopeChain c c.scopes.length sym chain (hchain _ (Nat.le_refl _))
  refine ⟨⟨chain, ?_, hhead, hlast, hnodup, hlen, hget⟩,
    ⟨_, (appendPath_eq_join c arrayPath true _ sym names hnames).2.2⟩,
    ⟨_, (appendPath_eq_join c arrayPath false _ sym names hnames).2.2⟩⟩
  intro fuel hf
  simp only [Compilation.walkParents, hparent]
  exact hchain fuel hf

/-- In a table that keeps the tree invariant, both paths of a symbol are the
dot-joined segments of its nesting chain. -/
theorem paths_of_tree (c : Compilation) (arrayPath : SymbolRef → List Int)
    (sym : SymbolRef) (htree : c.isTree = true) (hsym : (c.symbolAt sym).isSome = true) :
    ∃ chain first, c.nameChain c.scopes.length sym = some chain ∧
      chain.head? = some first ∧ first.scope = c.root ∧ chain.getLast? = some sym ∧
      Symbol.hierarchicalPath c arrayPath sym =
        some (".".intercalate (chain.map (c.segment arrayPath true))) ∧
      Symbol.lexicalPath c arrayPath sym =
        some (".".intercalate (chain.map (c.segment arrayPath false))) ∧
      ∀ s ∈ chain, ∀ name, (c.symbolAt s).map (fun d => d.name) = some name →
        c.segment arrayPath false s = name ∧
        c.segment arrayPath true s = name ++ indexText (arrayPath s) := by
  have hsid := scope_lt_of_symbolAt c sym hsym
  obtain ⟨scopes, hscopes, _⟩ := scopeChain_tree c htree sym.scope hsid
  obtain ⟨chain, hchain⟩ :=
    nameChain_of_scopeChain c c.scopes.length sym scopes (hscopes _ (Nat.le_refl _))
  obtain ⟨first, k, hhead, hnone, hanc⟩ := nameChain_head c _ sym chain hchain
  have hfirst : first.scope < c.scopes.length := ancestor_lt c htree k sym.scope _ hsid hanc
  have hroot : first.scope = c.root := by
    obtain ⟨hpar, hnopar, _⟩ := isTree_at c htree first.scope hfirst
    cases hp : c.parentOf first.scope with
    | none => exact hnopar hp
    | some p =>
      have := (hpar p hp).2
      rw [hnone] at this
      simp at this
  obtain ⟨_, hlast, hpath⟩ := appendPath_eq_join c arrayPath true _ sym chain hchain
  obtain ⟨_, _, hlex⟩ := appendPath_eq_join c arrayPath false _ sym chain hchain
  refine ⟨chain, first, hchain, hhead, hroot, hlast, hpath, hlex, ?_⟩
  intro s _ name hname
  cases hs : c.symbolAt s with
  | none => rw [hs] at hname; simp at hname
  | some d =>
    rw [hs] at hname
    simp at hname
    simp [Compilation.segment, hs, hname]

/-! ## The claims -/

/-- C1: for every scope, indexing at the index equal to the member count, the
value `len` returns, raises the index error and returns no symbol. -/
theorem getitem_at_len_raises (S : Scope) :
    ∃ n : Nat, S.__len__ = .ok (n : Int) ∧ S.__getitem__ n = .index_error :=
  ⟨S.memberList.length, len_eq S, getitem_above_count S _ (Nat.le_refl _) S.fits⟩

/-- C2: on the empty scope the index `2 ^ 63`, which exceeds the member count,
converts to the negative `ptrdiff_t` value `-2 ^ 63`, passes the bound check and
reaches the element access, whose behaviour is undefined; no index error is
raised. -/
theorem getitem_two_pow_63_undefined :
    ((⟨[], by decide⟩ : Scope).memberList.length < 2 ^ 63) ∧
    ptrdiff_t (2 ^ 63) = -(2 ^ 63) ∧
    (⟨[], by decide⟩ : Scope).__getitem__ (2 ^ 63) = .undefinedBehaviour := by
  decide

/-- C3: for every scope and every index below the length, indexing does not
fail and returns the element at that index of the sequence that iterating the
scope produces. -/
theorem getitem_eq_iteration (S : Scope) (i : Nat) (n : Int) (hlen : S.__len__ = .ok n)
    (hi : (i : Int) < n) :
    ∃ xs sym, (∀ fuel, xs.length < fuel → iterate fuel S.__iter__ = some xs) ∧
      xs[i]? = some sym ∧ S.__getitem__ i = .ok sym := by
  have hn : n = (S.memberList.length : Int) := by
    have h := len_eq S
    rw [hlen] at h
    injection h
  have hfit := S.fits
  have hlt : i < S.memberList.length := by omega
  refine ⟨S.memberList, S.memberList.get ⟨i, hlt⟩, fun fuel h => iterate_iter S fuel h, ?_, ?_⟩
  · simp [List.getElem?_eq_getElem hlt]
  · rw [getitem_cases S i (by omega), dif_pos hlt]

theorem getitem_eq_iteration_witness :
    ∃ xs sym, (∀ fuel, xs.length < fuel → iterate fuel sampleScope.__iter__ = some xs) ∧
      xs[1]? = some sym ∧ sampleScope.__getitem__ 1 = .ok sym :=
  getitem_eq_iteration sampleScope 1 2 (by decide) (by decide)

/-- C4: for every scope, `len` returns the number of symbols that iterating
the members from beginning to end produces, a non-negative integer. -/
theorem len_eq_iteration_count (S : Scope) :
    ∃ xs n, (∀ fuel, xs.length < fuel → iterate fuel S.__iter__ = some xs) ∧
      S.__len__ = .ok n ∧ n = (xs.length : Int) ∧ 0 ≤ n :=
  ⟨S.memberList, S.memberList.length, fun fuel h => iterate_iter S fuel h, len_eq S, rfl,
    Int.natCast_nonneg _⟩

/-- C5: iteration is restartable and finite. After any sequence of `iter` and
`next` calls on a scope, however far the earlier iterators were advanced, the
scope holds the same members, a further `iter` call creates the iterator a
first call creates, and iterating it ends after yielding exactly the members
in declaration order, starting at the first. -/
theorem iteration_restartable (S : Scope) (calls : List Call) :
    ((Session.run ⟨S, []⟩ calls).step .iter).iterators.getLast? = some S.__iter__ ∧
    (Session.run ⟨S, []⟩ calls).scope.memberList = S.memberList ∧
    (∀ fuel, S.memberList.length < fuel →
      iterate fuel (Session.run ⟨S, []⟩ calls).scope.__iter__ = some S.memberList) ∧
    ((Session.run ⟨S, []⟩ calls).scope.__iter__.__next__.1 =
      match S.memberList with
      | [] => .stop_iteration
      | first :: _ => .ok first) := by
  have hs : (Session.run ⟨S, []⟩ calls).scope = S := run_scope calls ⟨S, []⟩
  refine ⟨?_, ?_, ?_, ?_⟩
  · simp [Session.step, hs]
  · rw [hs]
  · intro fuel h
    rw [hs]
    exact iterate_iter S fuel h
  · rw [hs]
    cases hm : S.memberList with
    | nil => simp [iterator_state.__next__, Scope.__iter__, Scope.members, hm]
    | cons s rest =>
      simp [iterator_state.__next__, Scope.__iter__, Scope.members, hm, iterator.deref]

/-- C6: the printable representation of a symbol is the text `Symbol(`, the
kind, a comma and a space, the name between double quotes, and `)`, the kind
being printed as an enumerator of `SymbolKind`: `SymbolKind.` and its name. -/
theorem repr_format (toString : SymbolKind → String) (self : Symbol) :
    self.__repr__ toString =
      some ("Symbol(" ++ ("SymbolKind." ++ toString self.kind) ++ ", " ++ "\"" ++ self.name
        ++ "\"" ++ ")") := by
  simp only [Symbol.__repr__, fmt.format]
  have h : fmt.vformat "Symbol(SymbolKind.\x7b\x7d, \"\x7b\x7d\")".data
      [toString self.kind, self.name] =
      some (("Symbol(" ++ ("SymbolKind." ++ toString self.kind) ++ ", " ++ "\"" ++ self.name
        ++ "\"" ++ ")").data) := by
    simp [fmt.vformat, String.data_append]
  rw [h]
  rfl

/-- C7: for every scope and name, `find` returns a member of that very scope
that has the name, the first one in declaration order, and returns nothing
exactly when no member of the scope has the name, whatever the parent and the
other scopes of the compilation declare. -/
theorem find_first_own_member (c : Compilation) (self : ScopeId) (name : String) :
    (∀ r, Scope.find c self name = some r →
      r.scope = self ∧
      (∃ sym, (c.membersOf self)[r.index]? = some sym ∧ c.symbolAt r = some sym ∧
        sym.name = name) ∧
      ∀ j s, j < r.index → (c.membersOf self)[j]? = some s → s.name ≠ name) ∧
    (Scope.find c self name = none ↔ ∀ s ∈ c.membersOf self, s.name ≠ name) := by
  constructor
  · intro r hr
    unfold Scope.find Compilation.find at hr
    cases hf : firstNamed name (fun _ => true) (c.membersOf self) 0 with
    | none => rw [hf] at hr; simp at hr
    | some i =>
      rw [hf] at hr
      simp at hr
      subst hr
      obtain ⟨_, ⟨s, hs, hname⟩, _, hmin⟩ := firstNamed_some name _ _ 0 i hf
      refine ⟨rfl, ⟨s, by simpa using hs, by simpa [Compilation.symbolAt] using hs, hname⟩, ?_⟩
      intro j t hj ht hn
      exact hmin j t (by simpa using hj) ht ⟨hn, rfl⟩
  · unfold Scope.find Compilation.find
    constructor
    · intro h s hs
      have hf : firstNamed name (fun _ => true) (c.membersOf self) 0 = none := by
        simpa using h
      obtain ⟨j, hj⟩ := List.getElem?_of_mem hs
      intro hn
      exact firstNamed_none name _ _ 0 hf j s hj ⟨hn, rfl⟩
    · intro h
      cases hf : firstNamed name (fun _ => true) (c.membersOf self) 0 with
      | none => rfl
      | some i =>
        obtain ⟨_, ⟨s, hs, hname⟩, _, _⟩ := firstNamed_some name _ _ 0 i hf
        exact absurd hname (h s (List.mem_iff_getElem?.mpr ⟨_, hs⟩))

/-- C10: driver overlap symmetry. For any two drivers, `d1.overlaps(d2)` and
`d2.overlaps(d1)` give the same answer. -/
theorem overlaps_symmetric (d1 d2 : Driver) : d1.overlaps d2 = d2.overlaps d1 :=
  boundsOverlap_comm d1.bounds d2.bounds

/-- C13: reporting the diagnostics of a lookup result a second time emits
nothing: the first call hands the buffered diagnostics to the sink and leaves
the buffer empty, and the second call leaves both the sink and the result as
the first call left them. -/
theorem reportDiags_twice (result : LookupResult) (sink : List Diagnostic) :
    (result.reportDiags sink).2 = sink ++ result.diagnostics ∧
    ((result.reportDiags sink).1.reportDiags (result.reportDiags sink).2).2 =
      (result.reportDiags sink).2 ∧
    ((result.reportDiags sink).1.reportDiags (result.reportDiags sink).2).1 =
      (result.reportDiags sink).1 := by
  simp [LookupResult.reportDiags]

/-- C14, as stated, fails: on the exposed enumeration, registered without
`py::arithmetic()`, the expression `Type | NoSelectors` is a type error and no
flags value, whether or not the C++ enumeration is scoped; and on the C++ side
the mask `None | Type` does not have the flag `None` set, `None` being the
empty mask. -/
theorem exposed_flags_or_type_error :
    (LookupFlags.registration true).__or__ .Type_ .NoSelectors = .type_error ∧
    (LookupFlags.registration false).__or__ .Type_ .NoSelectors = .type_error ∧
    (¬ ∃ bits, (LookupFlags.registration false).__or__ .Type_ .NoSelectors = .value bits) ∧
    ((bitmask.of .None).or (bitmask.of .Type_)).has .None = false := by
  refine ⟨by decide, by decide, ?_, by decide⟩
  rintro ⟨bits, h⟩
  have herr : (LookupFlags.registration false).__or__ .Type_ .NoSelectors = .type_error := by
    decide
  rw [herr] at h
  cases h

/-- C14, amended: on the exposed enumeration `a | b` raises a type error for
every pair of flags; on the C++ side masks compose with `|`: the mask `x | y`
has a flag set exactly when `x` or `y` has it, in particular for the masks of
two flags `a` and `b`, whatever the underlying values of the flags. -/
theorem flags_compose_as_bitmask (a b : LookupFlags) :
    (∀ convertible, (LookupFlags.registration convertible).__or__ a b = .type_error) ∧
    (∀ x y : bitmask, ∀ f, (x.or y).has f = (x.has f || y.has f)) ∧
    (∀ f, ((bitmask.of a).or (bitmask.of b)).has f =
      ((bitmask.of a).has f || (bitmask.of b).has f)) := by
  refine ⟨?_, fun x y f => has_or x y f, fun f => has_or _ _ f⟩
  intro convertible
  cases convertible <;> rfl

/-- C15: each of `InstanceBodySymbol`, `GenerateBlockSymbol`,
`GenerateBlockArraySymbol`, `CovergroupBodySymbol`, `CoverpointSymbol` and
`CoverCrossSymbol` is registered with the bases `Symbol` and `Scope`, and
`__len__`, `__getitem__`, `__iter__`, `find` and `lookupName` are among the
attributes Python finds on it. -/
theorem scoping_constructs_are_symbol_and_scope :
    List.Forall
      (fun t =>
        (registerSymbols.find? (fun r => r.type == t)).map (fun r => r.bases) =
          some ["Symbol", "Scope"] ∧
        List.Forall (fun a => a ∈ attributesOf registerSymbols 2 t)
          ["__len__", "__getitem__", "__iter__", "find", "lookupName"])
      ["InstanceBodySymbol", "GenerateBlockSymbol", "GenerateBlockArraySymbol",
        "CovergroupBodySymbol", "CoverpointSymbol", "CoverCrossSymbol"] := by
  simp only [List.forall_iff_forall_mem]
  decide

/-- C16: when kind names consist of letters only, two symbols with the same
printable representation have the same kind name and the same name, whatever
characters the names contain. -/
theorem repr_determines_kind_and_name (toString : SymbolKind → String) (s1 s2 : Symbol)
    (hletters : ∀ k, ∀ ch ∈ (toString k).data, ch.isAlpha = true)
    (h : s1.__repr__ toString = s2.__repr__ toString) :
    toString s1.kind = toString s2.kind ∧ s1.name = s2.name := by
  obtain ⟨o1, ho1, hd1⟩ := repr_data toString s1
  obtain ⟨o2, ho2, hd2⟩ := repr_data toString s2
  have ho : o1 = o2 := by
    rw [ho1, ho2] at h
    injection h
  rw [← ho, hd1] at hd2
  have h3 := List.append_cancel_left hd2
  obtain ⟨hk, hr⟩ := split_at_first_nonletter Char.isAlpha ',' (by decide) _ _ _ _
    (hletters s1.kind) (hletters s2.kind) h3
  have hn : s1.name.data = s2.name.data := by
    have h4 : s1.name.data ++ ['\"', ')'] = s2.name.data ++ ['\"', ')'] := by
      simpa using hr
    exact List.append_cancel_right h4
  exact ⟨String.ext hk, String.ext hn⟩

theorem repr_determines_kind_and_name_witness :
    (fun _ : SymbolKind => "Variable") (⟨⟨1⟩, "a\", \"b"⟩ : Symbol).kind =
      (fun _ : SymbolKind => "Variable") (⟨⟨2⟩, "a\", \"b"⟩ : Symbol).kind ∧
    (⟨⟨1⟩, "a\", \"b"⟩ : Symbol).name = (⟨⟨2⟩, "a\", \"b"⟩ : Symbol).name :=
  repr_determines_kind_and_name (fun _ => "Variable") ⟨⟨1⟩, "a\", \"b"⟩ ⟨⟨2⟩, "a\", \"b"⟩
    (fun _ => by show ∀ ch ∈ "Variable".data, ch.isAlpha = true; decide) (by decide)

/-- C18: in `registerSymbols` every base a registration names is registered
earlier in the function; the bases used are the eight listed; hence no
registered type is, directly or through other types, a base of itself, and no
derived class is registered before one of its bases. -/
theorem bases_registered_first :
    basesRegisteredFirst [] registerSymbols = true ∧
    (∀ r ∈ registerSymbols, ∀ b ∈ r.bases,
      registeredBefore registerSymbols b r.type = true) ∧
    (registerSymbols.flatMap (fun r => r.bases)).dedup =
      ["ParameterSymbolBase", "TempVarSymbol", "VariableSymbol", "InstanceSymbolBase",
        "ValueSymbol", "RandSeqProductionSymbol::ProdBase", "Symbol", "Scope"] ∧
    ∀ x, ¬ Relation.TransGen (IsBaseOf registerSymbols) x x := by
  refine ⟨by decide, bases_before, by decide, ?_⟩
  intro x h
  exact Nat.lt_irrefl _ (transGen_rank x x h)

/-- C11: in every symbol table the declaration phase builds, the walk that
follows `parentScope` upward from any symbol ends at the root; it takes one
step per enclosing scope (step `i` is at the `i`-th ancestor of the owning
scope), at most as many as there are scopes, and visits no scope twice.
Consequently `hierarchicalPath` and `lexicalPath` return a string for the
symbol. -/
theorem parent_walk_terminates (steps : List (ScopeId × Declaration))
    (arrayPath : SymbolRef → List Int) (sym : SymbolRef)
    (hsym : ((Compilation.elaborate steps).symbolAt sym).isSome = true) :
    (∃ chain,
      (∀ fuel, (Compilation.elaborate steps).scopes.length ≤ fuel →
        (Compilation.elaborate steps).walkParents fuel sym = some chain) ∧
      chain.head? = some sym.scope ∧
      chain.getLast? = some (Compilation.elaborate steps).root ∧ chain.Nodup ∧
      chain.length ≤ (Compilation.elaborate steps).scopes.length ∧
      (∀ i, i < chain.length →
        chain[i]? = (Compilation.elaborate steps).ancestor i sym.scope)) ∧
    (∃ path, Symbol.hierarchicalPath (Compilation.elaborate steps) arrayPath sym = some path) ∧
    (∃ path, Symbol.lexicalPath (Compilation.elaborate steps) arrayPath sym = some path) :=
  walk_of_tree (Compilation.elaborate steps) arrayPath sym
    (isTree_of_wellLinked _ (wellLinked_elaborate steps)) hsym

theorem parent_walk_terminates_witness :
    (∃ chain,
      (∀ fuel, (Compilation.elaborate sampleSteps).scopes.length ≤ fuel →
        (Compilation.elaborate sampleSteps).walkParents fuel ⟨2, 0⟩ = some chain) ∧
      chain.head? = some 2 ∧
      chain.getLast? = some (Compilation.elaborate sampleSteps).root ∧ chain.Nodup ∧
      chain.length ≤ (Compilation.elaborate sampleSteps).scopes.length ∧
      (∀ i, i < chain.length →
        chain[i]? = (Compilation.elaborate sampleSteps).ancestor i 2)) ∧
    (∃ path, Symbol.hierarchicalPath (Compilation.elaborate sampleSteps) sampleArrayPath
      ⟨2, 0⟩ = some path) ∧
    (∃ path, Symbol.lexicalPath (Compilation.elaborate sampleSteps) sampleArrayPath
      ⟨2, 0⟩ = some path) :=
  parent_walk_terminates sampleSteps sampleArrayPath ⟨2, 0⟩ (by decide)

/-- C12: in every symbol table the declaration phase builds, the paths of a
symbol are read off its nesting chain: a chain of existing symbols that starts
at a member of the root and ends at the symbol, each symbol being the member
whose link is the scope of the next. The hierarchical path is the names of the
chain, each followed by `[i]` for every instance-array index of its symbol,
joined by dots, with nothing before the first or after the last; the lexical
path is the names alone, joined by dots. -/
theorem paths_are_dot_joined (steps : List (ScopeId × Declaration))
    (arrayPath : SymbolRef → List Int) (sym : SymbolRef)
    (hsym : ((Compilation.elaborate steps).symbolAt sym).isSome = true) :
    ∃ chain : List SymbolRef,
      (∃ first, chain.head? = some first ∧ first.scope = (Compilation.elaborate steps).root) ∧
      chain.getLast? = some sym ∧
      chain.Chain' (fun a b =>
        (Compilation.elaborate steps).linkOf a.scope a.index = .scope b.scope) ∧
      (∀ a ∈ chain, ((Compilation.elaborate steps).symbolAt a).isSome = true) ∧
      Symbol.hierarchicalPath (Compilation.elaborate steps) arrayPath sym =
        some (".".intercalate (chain.map (fun a =>
          (((Compilation.elaborate steps).symbolAt a).map (fun d => d.name)).getD "" ++
            (arrayPath a).foldr (fun i text => "[" ++ toString i ++ "]" ++ text) ""))) ∧
      Symbol.lexicalPath (Compilation.elaborate steps) arrayPath sym =
        some (".".intercalate (chain.map (fun a =>
          (((Compilation.elaborate steps).symbolAt a).map (fun d => d.name)).getD ""))) := by
  have htree := isTree_of_wellLinked _ (wellLinked_elaborate steps)
  obtain ⟨chain, first, hchain, hhead, hroot, hlast, hpath, hlex, _⟩ :=
    paths_of_tree (Compilation.elaborate steps) arrayPath sym htree hsym
  obtain ⟨hlinks, _, hex⟩ := nameChain_links _ _ sym chain hchain
  refine ⟨chain, ⟨first, hhead, hroot⟩, hlast, hlinks, ?_, ?_, ?_⟩
  · intro a ha
    rcases hex a ha with heq | hs
    · rw [heq]; exact hsym
    · exact hs
  · rw [hpath]
    congr 2
    exact List.map_congr_left (fun a _ => (segment_eq _ arrayPath a).1)
  · rw [hlex]
    congr 2
    exact List.map_congr_left (fun a _ => (segment_eq _ arrayPath a).2)

theorem paths_are_dot_joined_witness :
    ∃ chain : List SymbolRef,
      (∃ first, chain.head? = some first ∧
        first.scope = (Compilation.elaborate sampleSteps).root) ∧
      chain.getLast? = some ⟨2, 0⟩ ∧
      chain.Chain' (fun a b =>
        (Compilation.elaborate sampleSteps).linkOf a.scope a.index = .scope b.scope) ∧
      (∀ a ∈ chain, ((Compilation.elaborate sampleSteps).symbolAt a).isSome = true) ∧
      Symbol.hierarchicalPath (Compilation.elaborate sampleSteps) sampleArrayPath ⟨2, 0⟩ =
        some (".".intercalate (chain.map (fun a =>
          (((Compilation.elaborate sampleSteps).symbolAt a).map (fun d => d.name)).getD "" ++
            (sampleArrayPath a).foldr (fun i text => "[" ++ toString i ++ "]" ++ text) ""))) ∧
      Symbol.lexicalPath (Compilation.elaborate sampleSteps) sampleArrayPath ⟨2, 0⟩ =
        some (".".intercalate (chain.map (fun a =>
          (((Compilation.elaborate sampleSteps).symbolAt a).map (fun d => d.name)).getD ""))) :=
  paths_are_dot_joined sampleSteps sampleArrayPath ⟨2, 0⟩ (by decide)

/-- The two paths of the symbol `q` of the sample design, in the table written
out and in the table the declaration phase builds. -/
theorem sample_paths :
    Symbol.hierarchicalPath sampleDesign sampleArrayPath ⟨2, 0⟩ = some "top.u1[2].q" ∧
    Symbol.lexicalPath sampleDesign sampleArrayPath ⟨2, 0⟩ = some "top.u1.q" ∧
    Symbol.hierarchicalPath (Compilation.elaborate sampleSteps) sampleArrayPath ⟨2, 0⟩ =
      some "top.u1[2].q" ∧
    Symbol.lexicalPath (Compilation.elaborate sampleSteps) sampleArrayPath ⟨2, 0⟩ =
      some "top.u1.q" := by
  decide

end Slang
